import Mathlib

/-!
Verification of the meta-sync definition synchronization engine.

This file gives a shallow embedding of the meta-sync CLI's core logic
(`src/managers/definition.js`, `src/utils/constants.js`, `src/utils/manifest.js`,
the entry-conflict resolver and the metaobject entry copier) and proves
properties of the embedded functions.

Modelling conventions:
* JavaScript arrays become `List`, objects become structures.
* The `metaobjectIdMapping` (a JS `Map`) becomes an association list where
  `set` prepends and lookup takes the first hit, which matches the
  last-set-wins semantics of `Map.get`.
* Remote calls are abstracted by oracle functions returning an `Outcome`;
  the specific failure model used by several claims (a creation fails with a
  dependency-classified error exactly when a referenced id has not yet been
  created at the target) is `modelCreate` below.
* Real-time delays (`CREATION_DELAY_MS`, `PASS_DELAY_MS`) have no observable
  effect on the data flow and are not modelled.
* Each issued remote mutation is recorded in an event log so that statements
  about "calls issued" can be made.
-/

namespace MetaSync

/-- A name/value validation constraint, as stored on definitions. -/
structure Validation where
  name : String
  value : String
  deriving Repr, DecidableEq

/-- A sub-field spec of a metaobject definition.  Display-only attributes
(`description`, the type name, the required flag) are carried along untouched
by the engine and are omitted here. -/
structure MetaFieldSpec where
  key : String
  name : String
  validations : List Validation
  deriving Repr, DecidableEq

/-- A metaobject definition, identified by its `type` string; `id` is the
store-assigned identifier other definitions may reference. -/
structure MetaobjectDef where
  id : String
  type : String
  name : String
  fieldDefinitions : List MetaFieldSpec
  deriving Repr, DecidableEq

/-- A metafield definition, identified by its (namespace, key) pair.  The
namespace field is called `ns` because `namespace` is a Lean keyword. -/
structure MetafieldDef where
  id : String
  ns : String
  key : String
  name : String
  validations : List Validation
  deriving Repr, DecidableEq

/-- The `{metafields, metaobjects}` collection shape used throughout the
manager. -/
structure Definitions where
  metafields : List MetafieldDef
  metaobjects : List MetaobjectDef
  deriving Repr, DecidableEq

/-! Constants from `src/utils/constants.js`. -/

def DEPENDENCY_ERROR_PATTERNS : List String :=
  ["not found", "does not exist", "metaobject_reference", "invalid reference",
   "invalid_option", "validations must be a valid metaobject"]

def METAOBJECT_REFERENCE_VALIDATION_KEY : String := "metaobject_definition_id"

def MAX_DEPENDENCY_PASSES : Nat := 3

def RESERVED_METAFIELD_NAMESPACES : List String :=
  ["shopify", "shopify--discovery", "shopify--discovery--product_search_boost",
   "shopify--discovery--product_recommendation"]

def RESERVED_METAOBJECT_PREFIXES : List String := ["shopify--"]

/-- Actions of the entry conflict resolver (`ENTRY_CONFLICT_ACTIONS`). -/
inductive EntryAction where
  | update | skip | update_all | skip_all | quit
  deriving Repr, DecidableEq

/-- Whether `pat` occurs as a prefix of the character list `s`. -/
def charsStartWith : List Char → List Char → Bool
  | [], _ => true
  | _ :: _, [] => false
  | a :: pat, b :: s => if a = b then charsStartWith pat s else false

/-- Whether `pat` occurs as a contiguous subsequence of `s`
(the embedding of JavaScript `String.includes`). -/
def charsContain (pat : List Char) : List Char → Bool
  | [] => pat.isEmpty
  | b :: s => charsStartWith pat (b :: s) || charsContain pat s

/-- JavaScript `message.includes(pattern)` on strings. -/
def strIncludes (s pat : String) : Bool :=
  charsContain pat.data s.data

/-- JavaScript `startsWith` on strings, character by character. -/
def strStartsWith (s pre : String) : Bool :=
  charsStartWith pre.data s.data

/-- JavaScript `split(sep)` for a one-character separator, on character
lists (a trailing separator yields a trailing empty piece, as in
JavaScript). -/
def splitOnChar (sep : Char) : List Char → List (List Char)
  | [] => [[]]
  | c :: rest =>
    let r := splitOnChar sep rest
    if c = sep then [] :: r
    else match r with
      | [] => [[c]]
      | hd :: tl => (c :: hd) :: tl

/-- JavaScript `trim()`: strip whitespace from both ends. -/
def trimChars (l : List Char) : List Char :=
  ((l.dropWhile fun c => c.isWhitespace).reverse.dropWhile
    fun c => c.isWhitespace).reverse

/-- JavaScript `toLowerCase`, character by character (the definitions here
only apply it to ASCII text). -/
def strToLower (s : String) : String :=
  String.mk (s.data.map Char.toLower)

/-- `isReservedMetafieldNamespace` from `constants.js`: the namespace equals a
reserved namespace or extends it with `--`. -/
def isReservedMetafieldNamespace (ns : String) : Bool :=
  RESERVED_METAFIELD_NAMESPACES.any fun reserved =>
    ns == reserved || strStartsWith ns (reserved ++ "--")

/-- `isReservedMetaobjectType` from `constants.js`. -/
def isReservedMetaobjectType (type : String) : Bool :=
  RESERVED_METAOBJECT_PREFIXES.any fun p => strStartsWith type p

/-- A skipped-definition record produced by `filterReservedDefinitions`. -/
structure SkipRecord where
  key : String
  reason : String
  deriving Repr, DecidableEq

/-- `filterReservedDefinitions`: partition the input into kept and skipped
definitions by the reserved checks, preserving order. -/
def filterReservedDefinitions (definitions : Definitions) :
    Definitions × (List SkipRecord × List SkipRecord) :=
  let keptMf := definitions.metafields.filter
    fun mf => !isReservedMetafieldNamespace mf.ns
  let skippedMf := (definitions.metafields.filter
    fun mf => isReservedMetafieldNamespace mf.ns).map
      fun mf => SkipRecord.mk (mf.ns ++ "/" ++ mf.key) ("Reserved namespace: " ++ mf.ns)
  let keptMo := definitions.metaobjects.filter
    fun mo => !isReservedMetaobjectType mo.type
  let skippedMo := (definitions.metaobjects.filter
    fun mo => isReservedMetaobjectType mo.type).map
      fun mo => SkipRecord.mk mo.type ("Reserved type prefix: " ++ mo.type)
  (⟨keptMf, keptMo⟩, (skippedMf, skippedMo))

/-- `isDependencyError`: lower-case the message and test it against the fixed
substring patterns. -/
def isDependencyError (errorMessage : String) : Bool :=
  DEPENDENCY_ERROR_PATTERNS.any fun pattern =>
    strIncludes (strToLower errorMessage) pattern

/-! The identifier remapping table (`metaobjectIdMapping`, a JS `Map`):
`set` prepends, lookup returns the first (most recently set) entry. -/

/-- The remapping table from source-store ids to target-store ids. -/
abbrev IdMapping := List (String × String)

/-- `Map.get`: first entry whose key matches, scanning most recent first. -/
def lookupId : IdMapping → String → Option String
  | [], _ => none
  | (k, v) :: rest, key => if k = key then some v else lookupId rest key

/-- `updateMetaobjectReferences`: deep-copy the definition, substituting every
`metaobject_definition_id` validation value that has a (truthy, i.e.
non-empty) image in the mapping.  Validation substitution per value. -/
def substituteRef (idMapping : IdMapping) (v : Validation) : Validation :=
  if v.name = METAOBJECT_REFERENCE_VALIDATION_KEY then
    match lookupId idMapping v.value with
    | some newId => if newId = "" then v else { v with value := newId }
    | none => v
  else v

/-- `updateMetaobjectReferences` on a whole definition (the source's
`field.validations && field.validations.length > 0` guard is equivalent to
mapping over a possibly-empty list). -/
def updateMetaobjectReferences (definition : MetaobjectDef) (idMapping : IdMapping) :
    MetaobjectDef :=
  { definition with
    fieldDefinitions := definition.fieldDefinitions.map fun field =>
      { field with validations := field.validations.map (substituteRef idMapping) } }

/-- The `metaobject_definition_id` validation values of one sub-field. -/
def fieldRefs (field : MetaFieldSpec) : List String :=
  field.validations.filterMap fun v =>
    if v.name = METAOBJECT_REFERENCE_VALIDATION_KEY then some v.value else none

/-- All metaobject-reference values carried by a definition, in order. -/
def refIds (d : MetaobjectDef) : List String :=
  d.fieldDefinitions.flatMap fieldRefs

/-! The copy engine (`copyDefinitionsWithDependencies`).  Remote creations are
abstracted by an oracle receiving the submitted definition and the current
mapping (from which the set of already-created target definitions is
derivable); it returns the uniform result envelope. -/

/-- Result of one remote mutation: created id on success, or the error
message of the thrown exception / user-error envelope. -/
inductive Outcome where
  | ok (newId : String)
  | err (msg : String)
  deriving Repr, DecidableEq

/-- One issued remote mutation, recorded for auditing which calls the engine
makes.  For creations the event keeps both the caller's definition and the
definition value actually submitted (after reference rewriting). -/
inductive Event where
  | moCreate (original submitted : MetaobjectDef) (outcome : Outcome)
  | mfCreate (d : MetafieldDef) (outcome : Outcome)
  | moDelete (d : MetaobjectDef) (outcome : Outcome)
  | mfDelete (d : MetafieldDef) (outcome : Outcome)
  deriving Repr, DecidableEq

/-- One entry of a per-kind `errors` list: `{definition, error}`. -/
structure ErrEntry where
  definition : String
  error : String
  deriving Repr, DecidableEq

/-- A per-kind `{success, errors}` result. -/
structure KindResult where
  success : Nat
  errors : List ErrEntry
  deriving Repr, DecidableEq

/-- The `{metafields, metaobjects}` result shape. -/
structure CopyResults where
  metafields : KindResult
  metaobjects : KindResult
  deriving Repr, DecidableEq

/-- State threaded through the metaobject multi-pass loop: the remapping
table, the call log and the metaobject success/error accumulators. -/
structure CopySt where
  mapping : IdMapping
  log : List Event
  success : Nat
  errors : List ErrEntry
  deriving Repr, DecidableEq

/-- An oracle standing for `client.createMetaobjectDefinition`. -/
abbrev MoCreateOracle := MetaobjectDef → IdMapping → Outcome

/-- State update for a successful metaobject creation: record
`oldId -> newId` (a JS `Map.set`, here a prepend) and count the success. -/
def afterMoSuccess (st : CopySt) (d sub : MetaobjectDef) (nid : String) : CopySt :=
  { mapping := (d.id, nid) :: st.mapping
    log := st.log ++ [Event.moCreate d sub (Outcome.ok nid)]
    success := st.success + 1
    errors := st.errors }

/-- State update for a failed attempt that will be requeued: only the call is
logged. -/
def afterMoRequeue (st : CopySt) (d sub : MetaobjectDef) (msg : String) : CopySt :=
  { st with log := st.log ++ [Event.moCreate d sub (Outcome.err msg)] }

/-- State update for a terminally failed attempt: log the call and record the
error with its raw message. -/
def afterMoFailure (st : CopySt) (d sub : MetaobjectDef) (msg : String) : CopySt :=
  { st with
    log := st.log ++ [Event.moCreate d sub (Outcome.err msg)]
    errors := st.errors ++ [ErrEntry.mk d.type msg] }

/-- Prepend a requeued definition to the still-pending list of a recursive
result. -/
def requeue (d : MetaobjectDef) (r : CopySt × List MetaobjectDef) :
    CopySt × List MetaobjectDef :=
  (r.1, d :: r.2)

/-- One pass of the `for (const def of pendingMetaobjects)` loop: rewrite
references through the current mapping, attempt creation, and on a
dependency-classified failure with passes remaining requeue the original
definition; otherwise record a terminal failure. -/
def runPass (create : MoCreateOracle) (pass : Nat) :
    List MetaobjectDef → CopySt → CopySt × List MetaobjectDef
  | [], st => (st, [])
  | d :: rest, st =>
    let sub := updateMetaobjectReferences d st.mapping
    match create sub st.mapping with
    | Outcome.ok nid => runPass create pass rest (afterMoSuccess st d sub nid)
    | Outcome.err msg =>
      if isDependencyError msg = true ∧ pass < MAX_DEPENDENCY_PASSES then
        requeue d (runPass create pass rest (afterMoRequeue st d sub msg))
      else
        runPass create pass rest (afterMoFailure st d sub msg)

/-- The `while (pendingMetaobjects.length > 0 && pass < MAX_DEPENDENCY_PASSES)`
loop, with `fuel = MAX_DEPENDENCY_PASSES - pass` making termination
structural.  `pass` is incremented at the top of each iteration, as in the
source. -/
def copyLoopAux (create : MoCreateOracle) :
    Nat → Nat → List MetaobjectDef → CopySt → CopySt × List MetaobjectDef
  | 0, _, pending, st => (st, pending)
  | fuel + 1, pass, pending, st =>
    if pending = [] then (st, pending)
    else
      let r := runPass create (pass + 1) pending st
      copyLoopAux create fuel (pass + 1) r.2 r.1

/-- An oracle standing for `client.createMetafieldDefinition` (and for the
delete mutations); metafield creation is not rewritten through the mapping
in the source, so the oracle sees only the definition. -/
abbrev MfOracle := MetafieldDef → Outcome

/-- An oracle for metaobject deletion. -/
abbrev MoDeleteOracle := MetaobjectDef → Outcome

/-- The metaobject half of `processDefinitions`: attempt the operation on
each definition, counting successes and recording failures as
`{definition: def.type, error}`. -/
def processMoList (op : MetaobjectDef → Outcome) (ev : MetaobjectDef → Outcome → Event) :
    List MetaobjectDef → KindResult × List Event → KindResult × List Event
  | [], acc => acc
  | d :: rest, acc =>
    match op d with
    | Outcome.ok nid =>
      processMoList op ev rest
        (⟨acc.1.success + 1, acc.1.errors⟩, acc.2 ++ [ev d (Outcome.ok nid)])
    | Outcome.err msg =>
      processMoList op ev rest
        (⟨acc.1.success, acc.1.errors ++ [ErrEntry.mk d.type msg]⟩,
          acc.2 ++ [ev d (Outcome.err msg)])

/-- The metafield half of `processDefinitions`: failures are recorded as
`{definition: namespace + "/" + key, error}`. -/
def processMfList (op : MfOracle) (ev : MetafieldDef → Outcome → Event) :
    List MetafieldDef → KindResult × List Event → KindResult × List Event
  | [], acc => acc
  | d :: rest, acc =>
    match op d with
    | Outcome.ok nid =>
      processMfList op ev rest
        (⟨acc.1.success + 1, acc.1.errors⟩, acc.2 ++ [ev d (Outcome.ok nid)])
    | Outcome.err msg =>
      processMfList op ev rest
        (⟨acc.1.success, acc.1.errors ++ [ErrEntry.mk (d.ns ++ "/" ++ d.key) msg]⟩,
          acc.2 ++ [ev d (Outcome.err msg)])

/-- `processDefinitions`: zero results in dry-run mode; otherwise process the
metaobjects first, then the metafields, accumulating per-item outcomes. -/
def processDefinitions (opMo : MetaobjectDef → Outcome) (opMf : MfOracle)
    (evMo : MetaobjectDef → Outcome → Event) (evMf : MetafieldDef → Outcome → Event)
    (definitions : Definitions) (dryRun : Bool) : CopyResults × List Event :=
  if dryRun then (⟨⟨0, []⟩, ⟨0, []⟩⟩, [])
  else
    let mo := processMoList opMo evMo definitions.metaobjects (⟨0, []⟩, [])
    let mf := processMfList opMf evMf definitions.metafields (⟨0, []⟩, [])
    (⟨mf.1, mo.1⟩, mo.2 ++ mf.2)

/-- The message recorded for items left pending after every pass
(`'Unresolved metaobject dependency after maximum retry attempts'`). -/
def UNRESOLVED_DEPENDENCY_MSG : String :=
  "Unresolved metaobject dependency after maximum retry attempts"

/-- `copyDefinitionsWithDependencies`: filter reserved definitions, short-cut
in dry-run mode, run the multi-pass metaobject loop, convert anything still
pending into errors with the standard unresolved-dependency message, then
copy the metafields through `processDefinitions` (with an empty metaobject
list and a no-op metaobject operation).  Returns the results together with
the log of issued remote calls. -/
def copyDefinitionsWithDependencies (create : MoCreateOracle) (createMf : MfOracle)
    (definitions : Definitions) (dryRun : Bool) : CopyResults × List Event :=
  let filtered := (filterReservedDefinitions definitions).1
  if dryRun then (⟨⟨0, []⟩, ⟨0, []⟩⟩, [])
  else
    let r := copyLoopAux create MAX_DEPENDENCY_PASSES 0 filtered.metaobjects
      ⟨[], [], 0, []⟩
    let moErrors := r.1.errors ++ r.2.map
      fun d => ErrEntry.mk d.type UNRESOLVED_DEPENDENCY_MSG
    let mfr := processDefinitions (fun _ => Outcome.ok "") createMf
      (fun d o => Event.moCreate d d o) Event.mfCreate ⟨filtered.metafields, []⟩ false
    (⟨mfr.1.metafields, ⟨r.1.success, moErrors⟩⟩, r.1.log ++ mfr.2)

/-- `deleteDefinitions`: filter reserved definitions then delete everything
through `processDefinitions` (metaobjects first, then metafields). -/
def deleteDefinitions (delMo : MoDeleteOracle) (delMf : MfOracle)
    (definitions : Definitions) (dryRun : Bool) : CopyResults × List Event :=
  let filtered := (filterReservedDefinitions definitions).1
  processDefinitions delMo delMf Event.moDelete Event.mfDelete filtered dryRun

/-! The specific failure model used by the dependency-chain claims: the
target store starts empty, each successful creation assigns a fresh target
id, and a creation fails with a dependency-classified error exactly when a
referenced id is not yet created at the target. -/

/-- Fresh target-store identifiers. -/
def newId (n : Nat) : String := "#" ++ Nat.repr n

/-- The ids existing at the target store: every id handed out so far, i.e.
the range of the remapping table. -/
def targetIds (m : IdMapping) : List String := m.map Prod.snd

/-- Decidable containment of every reference in the created set. -/
def allCreated : List String → List String → Bool
  | [], _ => true
  | v :: vs, created => if v ∈ created then allCreated vs created else false

/-- The raw dependency-classified error message produced by the model. -/
def modelDepMsg : String := "Validation failed: referenced metaobject does not exist"

/-- The model creation oracle: succeed with a fresh id when every
metaobject reference of the submitted definition already exists at the
target, fail with a dependency-classified message otherwise. -/
def modelCreate : MoCreateOracle := fun sub m =>
  if allCreated (refIds sub) (targetIds m) then Outcome.ok (newId m.length)
  else Outcome.err modelDepMsg

/-! The manifest parser and matcher (`src/utils/manifest.js`). -/

/-- A parsed metafield identifier line (`{type: 'metafield', namespace, key,
identifier}`). -/
structure ManifestMetafield where
  ns : String
  key : String
  identifier : String
  deriving Repr, DecidableEq

/-- A parsed metaobject identifier line.  Parsing never sets the `name`
field; it is kept (as an `Option`) because `findMatchingDefinitions` reads
it on hand-constructed manifest objects. -/
structure ManifestMetaobject where
  objectType : String
  name : Option String := none
  identifier : String
  deriving Repr, DecidableEq

/-- The parsed manifest: metafield and metaobject identifier lists. -/
structure ParsedManifest where
  metafields : List ManifestMetafield
  metaobjects : List ManifestMetaobject
  deriving Repr, DecidableEq

/-- The two recognized section kinds. -/
inductive Section where
  | metafields | metaobjects
  deriving Repr, DecidableEq

/-- `parseDefinitionLine`: in a metafields section split `namespace.key` on
the first dot (multi-dot keys keep the remaining dots); in a metaobjects
section the whole name is the type. -/
def parseDefinitionLine (definitionName : String) (currentSection : Section) :
    Option (ManifestMetafield ⊕ ManifestMetaobject) :=
  match currentSection with
  | Section.metafields =>
    if strIncludes definitionName "." then
      let parts := (splitOnChar '.' definitionName.data).map String.mk
      if parts.length ≥ 2 then
        let ns := parts.headD ""
        let key := String.intercalate "." parts.tail
        some (Sum.inl ⟨ns, key, ns ++ "." ++ key⟩)
      else none
    else none
  | Section.metaobjects =>
    some (Sum.inr ⟨definitionName, none, definitionName⟩)

/-- One step of the `parseContent` line loop: definition headings (`### `)
are parsed under the current section; `#`/`##` headings mentioning
metafield or metaobject switch the section; everything else is ignored. -/
def parseStep (cur : Option Section) (acc : ParsedManifest) (line : String) :
    Option Section × ParsedManifest :=
  if strStartsWith line "### " ∧ cur ≠ none then
    match cur with
    | some sec =>
      match parseDefinitionLine (String.mk (trimChars (line.data.drop 4))) sec with
      | some (Sum.inl mf) => (cur, { acc with metafields := acc.metafields ++ [mf] })
      | some (Sum.inr mo) => (cur, { acc with metaobjects := acc.metaobjects ++ [mo] })
      | none => (cur, acc)
    | none => (cur, acc)
  else if strStartsWith line "#" ∧ ¬ strStartsWith line "###" then
    if strIncludes (strToLower line) "metafield" then (some Section.metafields, acc)
    else if strIncludes (strToLower line) "metaobject" then (some Section.metaobjects, acc)
    else (cur, acc)
  else (cur, acc)

/-- The `parseContent` loop over the prepared lines. -/
def parseLines : List String → Option Section → ParsedManifest → ParsedManifest
  | [], _, acc => acc
  | line :: rest, cur, acc =>
    let s := parseStep cur acc line
    parseLines rest s.1 s.2

/-- The section state after consuming a list of lines. -/
def sectionAfter : List String → Option Section → Option Section
  | [], cur => cur
  | line :: rest, cur => sectionAfter rest (parseStep cur ⟨[], []⟩ line).1

/-- `parseContent`: split on newlines, trim, drop empty lines, then run the
line loop with no current section. -/
def parseContent (content : String) : ParsedManifest :=
  let lines := ((splitOnChar '\n' content.data).map
    fun l => String.mk (trimChars l)).filter fun l => l.length > 0
  parseLines lines none ⟨[], []⟩

/-- A `notFound` record of `findMatchingDefinitions`. -/
structure NotFoundEntry where
  kind : String
  identifier : String
  deriving Repr, DecidableEq

/-- The result shape of `findMatchingDefinitions`. -/
structure MatchResults where
  metafields : List MetafieldDef
  metaobjects : List MetaobjectDef
  notFound : List NotFoundEntry
  deriving Repr, DecidableEq

/-- The metafield matching loop: exact match on (namespace, key). -/
def matchMetafields (all : List MetafieldDef) :
    List ManifestMetafield → List MetafieldDef × List NotFoundEntry
  | [] => ([], [])
  | m :: rest =>
    let r := matchMetafields all rest
    match all.find? (fun d => d.ns = m.ns ∧ d.key = m.key) with
    | some found => (found :: r.1, r.2)
    | none => (r.1, NotFoundEntry.mk "metafield" (m.ns ++ "/" ++ m.key) :: r.2)

/-- The metaobject matching predicate, embedding the JavaScript truthiness
of `manifestDef.objectType && ... || manifestDef.name && ...`. -/
def moNameMatches (nameField : Option String) (d : MetaobjectDef) : Prop :=
  match nameField with
  | some nm => nm ≠ "" ∧ d.name = nm
  | none => False

instance (nameField : Option String) (d : MetaobjectDef) :
    Decidable (moNameMatches nameField d) := by
  cases nameField <;> simp [moNameMatches] <;> exact inferInstance

/-- The full metaobject matching predicate. -/
def moMatches (m : ManifestMetaobject) (d : MetaobjectDef) : Prop :=
  (m.objectType ≠ "" ∧ d.type = m.objectType) ∨ moNameMatches m.name d

instance (m : ManifestMetaobject) (d : MetaobjectDef) : Decidable (moMatches m d) := by
  unfold moMatches; exact inferInstance

/-- The `manifestDef.objectType || manifestDef.name` fallback used for the
`notFound` identifier. -/
def moIdentifier (m : ManifestMetaobject) : String :=
  if m.objectType ≠ "" then m.objectType else (m.name.getD m.objectType)

/-- The metaobject matching loop. -/
def matchMetaobjects (all : List MetaobjectDef) :
    List ManifestMetaobject → List MetaobjectDef × List NotFoundEntry
  | [] => ([], [])
  | m :: rest =>
    let r := matchMetaobjects all rest
    match all.find? (fun d => moMatches m d) with
    | some found => (found :: r.1, r.2)
    | none => (r.1, NotFoundEntry.mk "metaobject" (moIdentifier m) :: r.2)

/-- `findMatchingDefinitions`: match the manifest's metafields then its
metaobjects against the full definition set; unmatched identifiers go to
`notFound` (metafield misses first, as in the source's loop order). -/
def findMatchingDefinitions (manifestDefs : ParsedManifest) (allDefinitions : Definitions) :
    MatchResults :=
  let mf := matchMetafields allDefinitions.metafields manifestDefs.metafields
  let mo := matchMetaobjects allDefinitions.metaobjects manifestDefs.metaobjects
  ⟨mf.1, mo.1, mf.2 ++ mo.2⟩

/-! The entry conflict resolver (`src/utils/entry-conflict.js`) and the
metaobject entry copier.  The interactive prompt is abstracted by a stream
of (valid) answers; a call reports whether it actually prompted. -/

/-- A field value of a metaobject entry. -/
structure EntryField where
  key : String
  value : String
  deriving Repr, DecidableEq

/-- A metaobject entry, identified by (type, handle). -/
structure Entry where
  type : String
  handle : String
  fields : List EntryField
  deriving Repr, DecidableEq

/-- `EntryConflictResolver.resolveConflict`, as a state machine on the
`globalAction` latch.  `answer` is what the interactive prompt would return
(always one of the five valid actions, since the prompt loops until it gets
one); the returned `Bool` records whether the prompt was reached. -/
def resolveConflict (dryRun : Bool) (globalAction : Option EntryAction)
    (answer : EntryAction) : EntryAction × Option EntryAction × Bool :=
  if globalAction = some EntryAction.update_all then
    (EntryAction.update, globalAction, false)
  else if globalAction = some EntryAction.skip_all then
    (EntryAction.skip, globalAction, false)
  else if dryRun then
    (EntryAction.update, globalAction, false)
  else
    match answer with
    | EntryAction.update_all => (EntryAction.update, some EntryAction.update_all, true)
    | EntryAction.skip_all => (EntryAction.skip, some EntryAction.skip_all, true)
    | a => (a, globalAction, true)

/-- Iterated conflict resolution over a list of prompt answers, collecting
the returned verdicts and whether each call prompted. -/
def resolveRun (dryRun : Bool) (globalAction : Option EntryAction) :
    List EntryAction → List (EntryAction × Bool) × Option EntryAction
  | [] => ([], globalAction)
  | answer :: rest =>
    let r := resolveConflict dryRun globalAction answer
    let tail := resolveRun dryRun r.2.1 rest
    ((r.1, r.2.2) :: tail.1, tail.2)

/-- The remote collaborator of the entry copier: existence lookup by
(type, handle), and create/upsert mutations returning the uniform
envelope. -/
structure EntryClient where
  byHandle : String → String → Option Entry
  createEntry : Entry → Outcome
  upsertEntry : Entry → Outcome

/-- A remote entry mutation issued by the entry copier. -/
inductive EntryEvent where
  | created (e : Entry)
  | upserted (e : Entry)
  deriving Repr, DecidableEq

/-- The `{success, errors, skipped}` accumulator of `copyMetaobjectEntries`. -/
structure EntryResults where
  success : Nat
  errors : List ErrEntry
  skipped : Nat
  deriving Repr, DecidableEq

/-- Mutable state threaded through the entry copier: the resolver latch, the
stream of prompt answers (with a cursor), and the log of issued
mutations. -/
structure EntrySt where
  globalAction : Option EntryAction
  answers : Nat → EntryAction
  answerIdx : Nat
  log : List EntryEvent

/-- The outcome of `copyMetaobjectEntry` (`{success?, skipped?, action?,
error?}` in the source). -/
inductive EntryOutcome where
  | success (action : EntryAction)
  | skipped
  | failed (msg : String)
  | quit
  deriving Repr, DecidableEq

/-- `copyMetaobjectEntry`: in dry-run mode report success; otherwise check
target existence by handle; on conflict delegate to the resolver and apply
its verdict; on no conflict create directly.  Envelope failures are caught
and returned as `failed`. -/
def copyMetaobjectEntry (client : EntryClient) (dryRun : Bool) (sourceEntry : Entry)
    (st : EntrySt) : EntryOutcome × EntrySt :=
  if dryRun then (EntryOutcome.success EntryAction.update, st)
  else
    match client.byHandle sourceEntry.type sourceEntry.handle with
    | some _existing =>
      let r := resolveConflict false st.globalAction (st.answers st.answerIdx)
      let st' := { st with
        globalAction := r.2.1
        answerIdx := if r.2.2 then st.answerIdx + 1 else st.answerIdx }
      -- `existing` participates only in the displayed diff, not in the verdict
      match r.1 with
      | EntryAction.quit => (EntryOutcome.quit, st')
      | EntryAction.skip => (EntryOutcome.skipped, st')
      | _ =>
        match client.upsertEntry sourceEntry with
        | Outcome.ok _ =>
          (EntryOutcome.success r.1,
            { st' with log := st'.log ++ [EntryEvent.upserted sourceEntry] })
        | Outcome.err msg => (EntryOutcome.failed ("Upsert failed: " ++ msg), st')
    | none =>
      match client.createEntry sourceEntry with
      | Outcome.ok _ =>
        (EntryOutcome.success EntryAction.update,
          { st with log := st.log ++ [EntryEvent.created sourceEntry] })
      | Outcome.err msg => (EntryOutcome.failed ("Create failed: " ++ msg), st)

/-- The inner `for (const sourceEntry of sourceEntries)` loop.  Returns the
accumulated results, the state, and whether the user aborted (in which case
the whole operation returns immediately). -/
def copyEntriesLoop (client : EntryClient) (dryRun : Bool) :
    List Entry → EntryResults → EntrySt → EntryResults × EntrySt × Bool
  | [], res, st => (res, st, false)
  | e :: rest, res, st =>
    let r := copyMetaobjectEntry client dryRun e st
    match r.1 with
    | EntryOutcome.quit => (res, r.2, true)
    | EntryOutcome.success _ =>
      copyEntriesLoop client dryRun rest { res with success := res.success + 1 } r.2
    | EntryOutcome.skipped =>
      copyEntriesLoop client dryRun rest { res with skipped := res.skipped + 1 } r.2
    | EntryOutcome.failed msg =>
      copyEntriesLoop client dryRun rest
        { res with errors := res.errors ++
            [ErrEntry.mk (e.type ++ "/" ++ e.handle) msg] } r.2

/-- A metaobject definition together with its pre-fetched source entries, as
consumed by `copyMetaobjectEntries` (the fetch-fallback branch for missing
pre-fetched entries — flagged in the source as indicating a bug — is outside
the modelled inputs). -/
structure MoDefWithEntries where
  type : String
  entries : List Entry
  deriving Repr, DecidableEq

/-- `copyMetaobjectEntries`: iterate the definitions and their entries; a
quit verdict anywhere returns the accumulated results immediately. -/
def copyMetaobjectEntries (client : EntryClient) (dryRun : Bool) :
    List MoDefWithEntries → EntryResults → EntrySt → EntryResults × EntrySt
  | [], res, st => (res, st)
  | d :: rest, res, st =>
    let r := copyEntriesLoop client dryRun d.entries res st
    if r.2.2 then (r.1, r.2.1)
    else copyMetaobjectEntries client dryRun rest r.1 r.2.1

/-! Helper lemmas about the remapping table and reference rewriting. -/

theorem afterMoSuccess_success (st : CopySt) (d sub : MetaobjectDef) (nid : String) :
    (afterMoSuccess st d sub nid).success = st.success + 1 := rfl

theorem afterMoSuccess_errors (st : CopySt) (d sub : MetaobjectDef) (nid : String) :
    (afterMoSuccess st d sub nid).errors = st.errors := rfl

theorem afterMoSuccess_mapping (st : CopySt) (d sub : MetaobjectDef) (nid : String) :
    (afterMoSuccess st d sub nid).mapping = (d.id, nid) :: st.mapping := rfl

theorem afterMoSuccess_log (st : CopySt) (d sub : MetaobjectDef) (nid : String) :
    (afterMoSuccess st d sub nid).log =
      st.log ++ [Event.moCreate d sub (Outcome.ok nid)] := rfl

theorem afterMoRequeue_success (st : CopySt) (d sub : MetaobjectDef) (msg : String) :
    (afterMoRequeue st d sub msg).success = st.success := rfl

theorem afterMoRequeue_errors (st : CopySt) (d sub : MetaobjectDef) (msg : String) :
    (afterMoRequeue st d sub msg).errors = st.errors := rfl

theorem afterMoRequeue_mapping (st : CopySt) (d sub : MetaobjectDef) (msg : String) :
    (afterMoRequeue st d sub msg).mapping = st.mapping := rfl

theorem afterMoRequeue_log (st : CopySt) (d sub : MetaobjectDef) (msg : String) :
    (afterMoRequeue st d sub msg).log =
      st.log ++ [Event.moCreate d sub (Outcome.err msg)] := rfl

theorem afterMoFailure_success (st : CopySt) (d sub : MetaobjectDef) (msg : String) :
    (afterMoFailure st d sub msg).success = st.success := rfl

theorem afterMoFailure_errors (st : CopySt) (d sub : MetaobjectDef) (msg : String) :
    (afterMoFailure st d sub msg).errors = st.errors ++ [ErrEntry.mk d.type msg] := rfl

theorem afterMoFailure_mapping (st : CopySt) (d sub : MetaobjectDef) (msg : String) :
    (afterMoFailure st d sub msg).mapping = st.mapping := rfl

theorem afterMoFailure_log (st : CopySt) (d sub : MetaobjectDef) (msg : String) :
    (afterMoFailure st d sub msg).log =
      st.log ++ [Event.moCreate d sub (Outcome.err msg)] := rfl

/-- The value substitution performed by `updateMetaobjectReferences` on a
single reference value. -/
def substVal (m : IdMapping) (w : String) : String :=
  match lookupId m w with
  | some nid => if nid = "" then w else nid
  | none => w

theorem lookupId_eq_some_mem {m : IdMapping} {k v : String}
    (h : lookupId m k = some v) : (k, v) ∈ m := by
  induction m with
  | nil => simp [lookupId] at h
  | cons p rest ih =>
    obtain ⟨a, b⟩ := p
    by_cases hk : a = k
    · subst hk
      simp [lookupId] at h
      simp [h]
    · simp [lookupId, hk] at h
      exact List.mem_cons_of_mem _ (ih h)

theorem lookupId_cons_of_ne {m : IdMapping} {a b k : String} (h : a ≠ k) :
    lookupId ((a, b) :: m) k = lookupId m k := by
  simp [lookupId, h]

theorem lookupId_eq_none_iff {m : IdMapping} {k : String} :
    lookupId m k = none ↔ k ∉ m.map Prod.fst := by
  induction m with
  | nil => simp [lookupId]
  | cons p rest ih =>
    obtain ⟨a, b⟩ := p
    by_cases hk : a = k
    · subst hk; simp [lookupId]
    · have hka : k ≠ a := fun h => hk h.symm
      rw [lookupId_cons_of_ne hk, ih]
      simp [List.mem_cons, hka]

theorem fieldRefs_map_subst (m : IdMapping) (f : MetaFieldSpec) :
    fieldRefs { f with validations := f.validations.map (substituteRef m) } =
      (fieldRefs f).map (substVal m) := by
  unfold fieldRefs
  induction f.validations with
  | nil => simp
  | cons v rest ih =>
    by_cases hv : v.name = METAOBJECT_REFERENCE_VALIDATION_KEY
    · simp only [List.map_cons, List.filterMap_cons]
      unfold substituteRef substVal
      rcases hlook : lookupId m v.value with _ | nid
      · simpa [hv, hlook] using ih
      · by_cases hnid : nid = ""
        · simpa [hv, hlook, hnid] using ih
        · simpa [hv, hlook, hnid] using ih
    · simp only [List.map_cons, List.filterMap_cons]
      unfold substituteRef
      simpa [hv] using ih

theorem refIds_update (d : MetaobjectDef) (m : IdMapping) :
    refIds (updateMetaobjectReferences d m) = (refIds d).map (substVal m) := by
  unfold refIds updateMetaobjectReferences
  simp only [List.map_flatMap]
  rw [List.flatMap_map]
  congr 1
  funext f
  exact fieldRefs_map_subst m f

theorem newId_ne_empty (n : Nat) : newId n ≠ "" := by
  intro h
  have : (newId n).data = [] := by rw [h]
  unfold newId at this
  rw [String.data_append] at this
  simp at this

theorem allCreated_eq_true_iff (vs created : List String) :
    allCreated vs created = true ↔ ∀ v ∈ vs, v ∈ created := by
  induction vs with
  | nil => simp [allCreated]
  | cons v rest ih =>
    by_cases hv : v ∈ created
    · simp [allCreated, hv, ih]
    · simp [allCreated, hv]

theorem isDependencyError_modelDepMsg : isDependencyError modelDepMsg = true := by
  decide

/-! Accounting: every processed definition is counted exactly once. -/

theorem processMoList_count (op : MetaobjectDef → Outcome)
    (ev : MetaobjectDef → Outcome → Event) (l : List MetaobjectDef)
    (acc : KindResult × List Event) :
    (processMoList op ev l acc).1.success + (processMoList op ev l acc).1.errors.length =
      acc.1.success + acc.1.errors.length + l.length := by
  induction l generalizing acc with
  | nil => simp [processMoList]
  | cons d rest ih =>
    rcases hop : op d with nid | msg
    · rw [processMoList, hop]
      rw [ih]
      simp
      omega
    · rw [processMoList, hop]
      rw [ih]
      simp
      omega

theorem processMfList_count (op : MfOracle)
    (ev : MetafieldDef → Outcome → Event) (l : List MetafieldDef)
    (acc : KindResult × List Event) :
    (processMfList op ev l acc).1.success + (processMfList op ev l acc).1.errors.length =
      acc.1.success + acc.1.errors.length + l.length := by
  induction l generalizing acc with
  | nil => simp [processMfList]
  | cons d rest ih =>
    rcases hop : op d with nid | msg
    · rw [processMfList, hop]
      rw [ih]
      simp
      omega
    · rw [processMfList, hop]
      rw [ih]
      simp
      omega

theorem runPass_count (create : MoCreateOracle) (pass : Nat)
    (l : List MetaobjectDef) (st : CopySt) :
    (runPass create pass l st).1.success + (runPass create pass l st).1.errors.length +
        (runPass create pass l st).2.length =
      st.success + st.errors.length + l.length := by
  induction l generalizing st with
  | nil => simp [runPass]
  | cons d rest ih =>
    rcases hop : create (updateMetaobjectReferences d st.mapping) st.mapping with nid | msg
    · have h := ih (afterMoSuccess st d (updateMetaobjectReferences d st.mapping) nid)
      rw [afterMoSuccess_success, afterMoSuccess_errors] at h
      simp only [runPass, hop, List.length_cons]
      omega
    · by_cases hdep : isDependencyError msg = true ∧ pass < MAX_DEPENDENCY_PASSES
      · have h := ih (afterMoRequeue st d (updateMetaobjectReferences d st.mapping) msg)
        rw [afterMoRequeue_success, afterMoRequeue_errors] at h
        simp only [runPass, hop, if_pos hdep, requeue, List.length_cons]
        omega
      · have h := ih (afterMoFailure st d (updateMetaobjectReferences d st.mapping) msg)
        rw [afterMoFailure_success, afterMoFailure_errors] at h
        simp only [List.length_append, List.length_cons, List.length_nil] at h
        simp only [runPass, hop, if_neg hdep, List.length_cons]
        omega

theorem copyLoopAux_count (create : MoCreateOracle) (fuel pass : Nat)
    (l : List MetaobjectDef) (st : CopySt) :
    (copyLoopAux create fuel pass l st).1.success +
        (copyLoopAux create fuel pass l st).1.errors.length +
        (copyLoopAux create fuel pass l st).2.length =
      st.success + st.errors.length + l.length := by
  induction fuel generalizing pass l st with
  | zero => simp [copyLoopAux]
  | succ fuel ih =>
    rw [copyLoopAux]
    by_cases hl : l = []
    · simp [hl]
    · rw [if_neg hl]
      simp only []
      rw [ih]
      exact runPass_count create (pass + 1) l st

/-- C9.  Exact accounting of `copyDefinitionsWithDependencies` in non-dry-run
mode: whatever the remote outcomes are, metaobject successes plus metaobject
errors equal the number of non-reserved input metaobject definitions, and
likewise for metafields.  No definition is counted twice across passes and
none is dropped. -/
theorem copy_accounts_every_definition_once (create : MoCreateOracle)
    (createMf : MfOracle) (definitions : Definitions) :
    (copyDefinitionsWithDependencies create createMf definitions false).1.metaobjects.success +
        (copyDefinitionsWithDependencies create createMf
          definitions false).1.metaobjects.errors.length =
      (definitions.metaobjects.filter fun mo => !isReservedMetaobjectType mo.type).length ∧
    (copyDefinitionsWithDependencies create createMf definitions false).1.metafields.success +
        (copyDefinitionsWithDependencies create createMf
          definitions false).1.metafields.errors.length =
      (definitions.metafields.filter fun mf => !isReservedMetafieldNamespace mf.ns).length := by
  unfold copyDefinitionsWithDependencies
  simp only [if_neg (Bool.false_ne_true), filterReservedDefinitions]
  constructor
  · have h := copyLoopAux_count create MAX_DEPENDENCY_PASSES 0
      (definitions.metaobjects.filter fun mo => !isReservedMetaobjectType mo.type)
      ⟨[], [], 0, []⟩
    simp only [List.length_append, List.length_map]
    simp only [List.length_nil] at h
    omega
  · have h := processMfList_count createMf Event.mfCreate
      (definitions.metafields.filter fun mf => !isReservedMetafieldNamespace mf.ns)
      (⟨0, []⟩, [])
    simpa [processDefinitions] using h

/-! Machinery for the dependency-chain claims: which definitions were
created, chain shape, and behaviour of the final pass. -/

/-- The definitions successfully created according to the call log. -/
def createdDefs (log : List Event) : List MetaobjectDef :=
  log.filterMap fun e =>
    match e with
    | Event.moCreate orig _ (Outcome.ok _) => some orig
    | _ => none

/-- A dependency chain: the first definition carries no metaobject
reference, and each subsequent definition's `metaobject_definition_id`
validations consist of exactly one reference to the previous definition's
source id. -/
def chainFrom : Option MetaobjectDef → List MetaobjectDef → Prop
  | _, [] => True
  | prev, d :: rest =>
    refIds d = (match prev with | none => [] | some p => [p.id]) ∧
      chainFrom (some d) rest

theorem mem_createdDefs {log : List Event} {d sub : MetaobjectDef} {nid : String}
    (h : Event.moCreate d sub (Outcome.ok nid) ∈ log) : d ∈ createdDefs log := by
  unfold createdDefs
  exact List.mem_filterMap.mpr ⟨_, h, rfl⟩

theorem createdDefs_append (l₁ l₂ : List Event) :
    createdDefs (l₁ ++ l₂) = createdDefs l₁ ++ createdDefs l₂ := by
  unfold createdDefs
  exact List.filterMap_append ..

/-- In the final pass (`pass = MAX_DEPENDENCY_PASSES`) nothing is requeued:
every failure is terminal.  Consequently the post-loop "remaining failures"
block of the source, which stamps pending items with the standard
unresolved-dependency message, is unreachable. -/
theorem runPass_final_pending_nil (create : MoCreateOracle) (pass : Nat)
    (hp : MAX_DEPENDENCY_PASSES ≤ pass) (l : List MetaobjectDef) (st : CopySt) :
    (runPass create pass l st).2 = [] := by
  induction l generalizing st with
  | nil => simp [runPass]
  | cons d rest ih =>
    rcases hop : create (updateMetaobjectReferences d st.mapping) st.mapping with nid | msg
    · simp only [runPass, hop]
      exact ih _
    · have hdep : ¬(isDependencyError msg = true ∧ pass < MAX_DEPENDENCY_PASSES) := by
        rintro ⟨-, hlt⟩; omega
      simp only [runPass, hop, if_neg hdep]
      exact ih _

theorem copyLoopAux_final_pending_nil (create : MoCreateOracle) (fuel pass : Nat)
    (hfp : fuel + pass = MAX_DEPENDENCY_PASSES) (hf : 1 ≤ fuel)
    (l : List MetaobjectDef) (st : CopySt) :
    (copyLoopAux create fuel pass l st).2 = [] := by
  induction fuel generalizing pass l st with
  | zero => omega
  | succ fuel ih =>
    rw [copyLoopAux]
    by_cases hl : l = []
    · simp [hl]
    · rw [if_neg hl]
      simp only []
      rcases Nat.eq_zero_or_pos fuel with hf0 | hfpos
      · subst hf0
        simp only [copyLoopAux]
        exact runPass_final_pending_nil create (pass + 1) (by omega) l st
      · exact ih (pass + 1) (by omega) (by omega) _ _

theorem runPass_log_mono (create : MoCreateOracle) (pass : Nat)
    (l : List MetaobjectDef) (st : CopySt) {e : Event} (he : e ∈ st.log) :
    e ∈ (runPass create pass l st).1.log := by
  induction l generalizing st with
  | nil => simpa [runPass] using he
  | cons d rest ih =>
    rcases hop : create (updateMetaobjectReferences d st.mapping) st.mapping with nid | msg
    · simp only [runPass, hop]
      exact ih _ (by rw [afterMoSuccess_log]; exact List.mem_append_left _ he)
    · by_cases hdep : isDependencyError msg = true ∧ pass < MAX_DEPENDENCY_PASSES
      · simp only [runPass, hop, if_pos hdep, requeue]
        exact ih _ (by rw [afterMoRequeue_log]; exact List.mem_append_left _ he)
      · simp only [runPass, hop, if_neg hdep]
        exact ih _ (by rw [afterMoFailure_log]; exact List.mem_append_left _ he)

theorem runPass_errors_mono (create : MoCreateOracle) (pass : Nat)
    (l : List MetaobjectDef) (st : CopySt) {e : ErrEntry} (he : e ∈ st.errors) :
    e ∈ (runPass create pass l st).1.errors := by
  induction l generalizing st with
  | nil => simpa [runPass] using he
  | cons d rest ih =>
    rcases hop : create (updateMetaobjectReferences d st.mapping) st.mapping with nid | msg
    · simp only [runPass, hop]
      exact ih _ (by rw [afterMoSuccess_errors]; exact he)
    · by_cases hdep : isDependencyError msg = true ∧ pass < MAX_DEPENDENCY_PASSES
      · simp only [runPass, hop, if_pos hdep, requeue]
        exact ih _ (by rw [afterMoRequeue_errors]; exact he)
      · simp only [runPass, hop, if_neg hdep]
        exact ih _ (by rw [afterMoFailure_errors]; exact List.mem_append_left _ he)

theorem copyLoopAux_log_mono (create : MoCreateOracle) (fuel pass : Nat)
    (l : List MetaobjectDef) (st : CopySt) {e : Event} (he : e ∈ st.log) :
    e ∈ (copyLoopAux create fuel pass l st).1.log := by
  induction fuel generalizing pass l st with
  | zero => simpa [copyLoopAux] using he
  | succ fuel ih =>
    rw [copyLoopAux]
    by_cases hl : l = []
    · simpa [hl] using he
    · rw [if_neg hl]
      exact ih _ _ _ (runPass_log_mono create (pass + 1) l st he)

theorem copyLoopAux_errors_mono (create : MoCreateOracle) (fuel pass : Nat)
    (l : List MetaobjectDef) (st : CopySt) {e : ErrEntry} (he : e ∈ st.errors) :
    e ∈ (copyLoopAux create fuel pass l st).1.errors := by
  induction fuel generalizing pass l st with
  | zero => simpa [copyLoopAux] using he
  | succ fuel ih =>
    rw [copyLoopAux]
    by_cases hl : l = []
    · simpa [hl] using he
    · rw [if_neg hl]
      exact ih _ _ _ (runPass_errors_mono create (pass + 1) l st he)

/-- Per-definition completeness of one model pass: every pending definition
either gets created, lands in the error list with the model's raw
dependency message, or is requeued. -/
theorem runPass_model_complete (pass : Nat) (l : List MetaobjectDef) (st : CopySt)
    {d : MetaobjectDef} (hd : d ∈ l) :
    d ∈ createdDefs (runPass modelCreate pass l st).1.log ∨
      ErrEntry.mk d.type modelDepMsg ∈ (runPass modelCreate pass l st).1.errors ∨
      d ∈ (runPass modelCreate pass l st).2 := by
  induction l generalizing st with
  | nil => cases hd
  | cons a rest ih =>
    rcases hop : modelCreate (updateMetaobjectReferences a st.mapping) st.mapping
      with nid | msg
    · rcases List.mem_cons.mp hd with rfl | hd'
      · left
        apply @mem_createdDefs _ d (updateMetaobjectReferences d st.mapping) nid
        simp only [runPass, hop]
        apply runPass_log_mono
        rw [afterMoSuccess_log]
        exact List.mem_append_right _ (List.mem_singleton.mpr rfl)
      · simp only [runPass, hop]
        exact ih _ hd'
    · have hmsg : msg = modelDepMsg := by
        unfold modelCreate at hop
        by_cases hall : allCreated (refIds (updateMetaobjectReferences a st.mapping))
            (targetIds st.mapping) = true
        · rw [if_pos hall] at hop; cases hop
        · rw [if_neg hall] at hop; cases hop; rfl
      subst hmsg
      by_cases hdep : isDependencyError modelDepMsg = true ∧ pass < MAX_DEPENDENCY_PASSES
      · rcases List.mem_cons.mp hd with rfl | hd'
        · right; right
          simp only [runPass, hop, if_pos hdep, requeue]
          exact List.mem_cons_self _ _
        · simp only [runPass, hop, if_pos hdep, requeue]
          rcases ih (afterMoRequeue st a (updateMetaobjectReferences a st.mapping)
              modelDepMsg) hd' with h | h | h
          · left; exact h
          · right; left; exact h
          · right; right; exact List.mem_cons_of_mem _ h
      · rcases List.mem_cons.mp hd with rfl | hd'
        · right; left
          simp only [runPass, hop, if_neg hdep]
          apply runPass_errors_mono
          rw [afterMoFailure_errors]
          exact List.mem_append_right _ (List.mem_singleton.mpr rfl)
        · simp only [runPass, hop, if_neg hdep]
          exact ih _ hd'

/-- Loop-level completeness for the model client. -/
theorem copyLoopAux_model_complete (fuel pass : Nat) (l : List MetaobjectDef)
    (st : CopySt) {d : MetaobjectDef} (hd : d ∈ l) :
    d ∈ createdDefs (copyLoopAux modelCreate fuel pass l st).1.log ∨
      ErrEntry.mk d.type modelDepMsg ∈ (copyLoopAux modelCreate fuel pass l st).1.errors ∨
      d ∈ (copyLoopAux modelCreate fuel pass l st).2 := by
  induction fuel generalizing pass l st with
  | zero => right; right; simpa [copyLoopAux] using hd
  | succ fuel ih =>
    rw [copyLoopAux]
    by_cases hl : l = []
    · subst hl; cases hd
    · rw [if_neg hl]
      simp only []
      rcases runPass_model_complete (pass + 1) l st hd with h | h | h
      · left
        exact List.mem_filterMap.mpr
          (by
            rcases List.mem_filterMap.mp h with ⟨e, he, hsome⟩
            exact ⟨e, copyLoopAux_log_mono modelCreate fuel (pass + 1) _ _ he, hsome⟩)
      · right; left
        exact copyLoopAux_errors_mono modelCreate fuel (pass + 1) _ _ h
      · exact ih _ _ _ h

/-- In a model run, every recorded metaobject error carries the model's raw
dependency message. -/
theorem runPass_model_errors (pass : Nat) (l : List MetaobjectDef) (st : CopySt)
    {e : ErrEntry} (he : e ∈ (runPass modelCreate pass l st).1.errors) :
    e ∈ st.errors ∨ e.error = modelDepMsg := by
  induction l generalizing st with
  | nil => left; simpa [runPass] using he
  | cons a rest ih =>
    rcases hop : modelCreate (updateMetaobjectReferences a st.mapping) st.mapping
      with nid | msg
    · simp only [runPass, hop] at he
      rcases ih _ he with h | h
      · left; rwa [afterMoSuccess_errors] at h
      · right; exact h
    · have hmsg : msg = modelDepMsg := by
        unfold modelCreate at hop
        by_cases hall : allCreated (refIds (updateMetaobjectReferences a st.mapping))
            (targetIds st.mapping) = true
        · rw [if_pos hall] at hop; cases hop
        · rw [if_neg hall] at hop; cases hop; rfl
      subst hmsg
      by_cases hdep : isDependencyError modelDepMsg = true ∧ pass < MAX_DEPENDENCY_PASSES
      · simp only [runPass, hop, if_pos hdep, requeue] at he
        rcases ih _ he with h | h
        · left; rwa [afterMoRequeue_errors] at h
        · right; exact h
      · simp only [runPass, hop, if_neg hdep] at he
        rcases ih _ he with h | h
        · rw [afterMoFailure_errors] at h
          rcases List.mem_append.mp h with h' | h'
          · left; exact h'
          · right; rw [List.mem_singleton.mp h']
        · right; exact h

theorem copyLoopAux_model_errors (fuel pass : Nat) (l : List MetaobjectDef)
    (st : CopySt) {e : ErrEntry}
    (he : e ∈ (copyLoopAux modelCreate fuel pass l st).1.errors) :
    e ∈ st.errors ∨ e.error = modelDepMsg := by
  induction fuel generalizing pass l st with
  | zero => left; simpa [copyLoopAux] using he
  | succ fuel ih =>
    rw [copyLoopAux] at he
    by_cases hl : l = []
    · left; simpa [hl] using he
    · rw [if_neg hl] at he
      simp only [] at he
      rcases ih _ _ _ he with h | h
      · exact runPass_model_errors (pass + 1) l st h
      · right; exact h

/-! Definitional unfoldings of `copyDefinitionsWithDependencies` in
non-dry-run mode, naming the intermediate loop result. -/

/-- The metaobject loop result inside a non-dry-run copy. -/
def copyLoopResult (create : MoCreateOracle) (definitions : Definitions) :
    CopySt × List MetaobjectDef :=
  copyLoopAux create MAX_DEPENDENCY_PASSES 0
    ((filterReservedDefinitions definitions).1.metaobjects) ⟨[], [], 0, []⟩

theorem copy_false_mo_errors (create : MoCreateOracle) (createMf : MfOracle)
    (definitions : Definitions) :
    (copyDefinitionsWithDependencies create createMf definitions false).1.metaobjects.errors =
      (copyLoopResult create definitions).1.errors ++
        (copyLoopResult create definitions).2.map
          (fun d => ErrEntry.mk d.type UNRESOLVED_DEPENDENCY_MSG) := rfl

theorem copy_false_mo_success (create : MoCreateOracle) (createMf : MfOracle)
    (definitions : Definitions) :
    (copyDefinitionsWithDependencies create createMf definitions false).1.metaobjects.success =
      (copyLoopResult create definitions).1.success := rfl

theorem copy_false_log (create : MoCreateOracle) (createMf : MfOracle)
    (definitions : Definitions) :
    (copyDefinitionsWithDependencies create createMf definitions false).2 =
      (copyLoopResult create definitions).1.log ++
        (processDefinitions (fun _ => Outcome.ok "") createMf
          (fun d o => Event.moCreate d d o) Event.mfCreate
          ⟨(filterReservedDefinitions definitions).1.metafields, []⟩ false).2 := rfl

theorem copyLoopResult_pending_nil (create : MoCreateOracle)
    (definitions : Definitions) : (copyLoopResult create definitions).2 = [] :=
  copyLoopAux_final_pending_nil create MAX_DEPENDENCY_PASSES 0 rfl
    (by norm_num [MAX_DEPENDENCY_PASSES]) _ _

/-- C2 (amended).  Under the claim's failure model, when the passes are
exhausted every non-reserved metaobject definition that was never created
appears in `metaobjects.errors` with the raw per-attempt dependency message
of the model — not with the standard
`'Unresolved metaobject dependency after maximum retry attempts'` message,
which never occurs because the final pass turns every failure terminal and
leaves nothing pending for the post-loop reporting block. -/
theorem copy_uncreated_get_raw_error_message (createMf : MfOracle)
    (definitions : Definitions) (chain : List MetaobjectDef)
    (_hchain : chainFrom none chain)
    (_hlen : MAX_DEPENDENCY_PASSES < chain.length)
    (_hmem : ∀ c ∈ chain, c ∈ definitions.metaobjects)
    (d : MetaobjectDef) (hd : d ∈ definitions.metaobjects)
    (hres : isReservedMetaobjectType d.type = false)
    (hunc : d ∉ createdDefs
      (copyDefinitionsWithDependencies modelCreate createMf definitions false).2) :
    ErrEntry.mk d.type modelDepMsg ∈
        (copyDefinitionsWithDependencies modelCreate createMf
          definitions false).1.metaobjects.errors ∧
      (∀ e ∈ (copyDefinitionsWithDependencies modelCreate createMf
          definitions false).1.metaobjects.errors, e.error = modelDepMsg) ∧
      modelDepMsg ≠ UNRESOLVED_DEPENDENCY_MSG := by
  have hpend := copyLoopResult_pending_nil modelCreate definitions
  have herrs : (copyDefinitionsWithDependencies modelCreate createMf
      definitions false).1.metaobjects.errors =
      (copyLoopResult modelCreate definitions).1.errors := by
    rw [copy_false_mo_errors modelCreate createMf definitions, hpend]
    simp
  refine ⟨?_, ?_, by decide⟩
  · have hdf : d ∈ (filterReservedDefinitions definitions).1.metaobjects := by
      simp only [filterReservedDefinitions]
      exact List.mem_filter.mpr ⟨hd, by simp [hres]⟩
    rcases copyLoopAux_model_complete MAX_DEPENDENCY_PASSES 0
        ((filterReservedDefinitions definitions).1.metaobjects) ⟨[], [], 0, []⟩ hdf
      with h | h | h
    · exfalso
      apply hunc
      rw [copy_false_log modelCreate createMf definitions, createdDefs_append]
      exact List.mem_append_left _ h
    · rw [herrs]; exact h
    · rw [show copyLoopAux modelCreate MAX_DEPENDENCY_PASSES 0
          ((filterReservedDefinitions definitions).1.metaobjects) ⟨[], [], 0, []⟩ =
          copyLoopResult modelCreate definitions from rfl, hpend] at h
      cases h
  · intro e he
    rw [herrs] at he
    rcases copyLoopAux_model_errors MAX_DEPENDENCY_PASSES 0 _ _ he with h | h
    · cases h
    · exact h

/-! Concrete dependency chain used by the counterexamples and witnesses:
`t0 <- t1 <- t2 <- t3`, each referencing the previous definition's source
id. -/

def ex0 : MetaobjectDef := ⟨"gid0", "t0", "T0", [⟨"f", "F", []⟩]⟩

def ex1 : MetaobjectDef :=
  ⟨"gid1", "t1", "T1", [⟨"f", "F", [⟨METAOBJECT_REFERENCE_VALIDATION_KEY, "gid0"⟩]⟩]⟩

def ex2 : MetaobjectDef :=
  ⟨"gid2", "t2", "T2", [⟨"f", "F", [⟨METAOBJECT_REFERENCE_VALIDATION_KEY, "gid1"⟩]⟩]⟩

def ex3 : MetaobjectDef :=
  ⟨"gid3", "t3", "T3", [⟨"f", "F", [⟨METAOBJECT_REFERENCE_VALIDATION_KEY, "gid2"⟩]⟩]⟩

/-- The 4-element chain presented in reverse (worst-case) order. -/
def exChainRevInput : Definitions := ⟨[], [ex3, ex2, ex1, ex0]⟩

/-- C2 counterexample.  On the reversed 4-chain, `ex3` is never created and
the passes are exhausted, yet its error entry carries the raw per-attempt
dependency message, not the standard unresolved-dependency message the
claim requires. -/
theorem copy_exhausted_standard_message_refuted :
    ex3 ∉ createdDefs (copyDefinitionsWithDependencies modelCreate
        (fun _ => Outcome.ok "") exChainRevInput false).2 ∧
      (copyDefinitionsWithDependencies modelCreate (fun _ => Outcome.ok "")
          exChainRevInput false).1.metaobjects.errors =
        [ErrEntry.mk "t3" modelDepMsg] ∧
      ¬ ErrEntry.mk "t3" UNRESOLVED_DEPENDENCY_MSG ∈
        (copyDefinitionsWithDependencies modelCreate (fun _ => Outcome.ok "")
          exChainRevInput false).1.metaobjects.errors := by
  refine ⟨by decide, by decide, by decide⟩

/-- C2 witness: the amended theorem applied to the reversed 4-chain. -/
theorem copy_uncreated_get_raw_error_message_witness :
    MAX_DEPENDENCY_PASSES < 4 ∧
      ErrEntry.mk "t3" modelDepMsg ∈
        (copyDefinitionsWithDependencies modelCreate (fun _ => Outcome.ok "")
          exChainRevInput false).1.metaobjects.errors :=
  ⟨by decide,
    (copy_uncreated_get_raw_error_message (fun _ => Outcome.ok "") exChainRevInput
      [ex0, ex1, ex2, ex3] ⟨rfl, rfl, rfl, rfl, trivial⟩ (by decide) (by decide)
      ex3 (by decide) (by decide) (by decide)).1⟩

/-! A dependency chain presented in dependency order succeeds wholesale in a
single pass: the mapping is extended immediately on each success and
consulted per item, so each link sees its predecessor's fresh target id. -/

/-- Generalized single-pass chain success.  If the previous chain element is
already mapped to a created target id (or there is no previous element),
the whole chain is created within the pass. -/
theorem runPass_model_chain (pass : Nat) (cs : List MetaobjectDef)
    (prev : Option MetaobjectDef) (st : CopySt) (hchain : chainFrom prev cs)
    (hprev : match prev with
      | none => True
      | some p => ∃ x, lookupId st.mapping p.id = some x ∧ x ≠ "" ∧
          x ∈ targetIds st.mapping) :
    (runPass modelCreate pass cs st).2 = [] ∧
      (runPass modelCreate pass cs st).1.success = st.success + cs.length ∧
      (runPass modelCreate pass cs st).1.errors = st.errors := by
  induction cs generalizing prev st with
  | nil => simp [runPass]
  | cons d rest ih =>
    obtain ⟨hrefs, hrest⟩ := hchain
    have hall : allCreated (refIds (updateMetaobjectReferences d st.mapping))
        (targetIds st.mapping) = true := by
      rw [refIds_update, hrefs]
      cases prev with
      | none => simp [allCreated]
      | some p =>
        obtain ⟨x, hlook, hx, hxmem⟩ := hprev
        simp only [List.map_cons, List.map_nil, substVal, hlook, if_neg hx]
        simp [allCreated, hxmem]
    have hok : modelCreate (updateMetaobjectReferences d st.mapping) st.mapping =
        Outcome.ok (newId st.mapping.length) := by
      unfold modelCreate
      rw [if_pos hall]
    have hnext : ∃ x, lookupId (afterMoSuccess st d
        (updateMetaobjectReferences d st.mapping) (newId st.mapping.length)).mapping d.id =
        some x ∧ x ≠ "" ∧ x ∈ targetIds (afterMoSuccess st d
          (updateMetaobjectReferences d st.mapping) (newId st.mapping.length)).mapping := by
      refine ⟨newId st.mapping.length, ?_, newId_ne_empty _, ?_⟩
      · rw [afterMoSuccess_mapping]
        simp [lookupId]
      · rw [afterMoSuccess_mapping]
        simp [targetIds]
    obtain ⟨hp, hs, he⟩ := ih (some d) _ hrest hnext
    refine ⟨?_, ?_, ?_⟩
    · simp only [runPass, hok]
      exact hp
    · simp only [runPass, hok]
      rw [hs, afterMoSuccess_success]
      simp only [List.length_cons]
      omega
    · simp only [runPass, hok]
      rw [he, afterMoSuccess_errors]

/-- C10.  A dependency chain supplied in dependency order is fully created in
the first pass (no requeue, no errors), and the whole non-dry-run copy then
reports every chain element as a success. -/
theorem in_order_chain_created_in_first_pass (createMf : MfOracle)
    (cs : List MetaobjectDef) (hchain : chainFrom none cs)
    (hres : ∀ d ∈ cs, isReservedMetaobjectType d.type = false) :
    (runPass modelCreate 1 cs ⟨[], [], 0, []⟩).2 = [] ∧
      (runPass modelCreate 1 cs ⟨[], [], 0, []⟩).1.success = cs.length ∧
      (runPass modelCreate 1 cs ⟨[], [], 0, []⟩).1.errors = [] ∧
      (copyDefinitionsWithDependencies modelCreate createMf
          ⟨[], cs⟩ false).1.metaobjects.success = cs.length ∧
      (copyDefinitionsWithDependencies modelCreate createMf
          ⟨[], cs⟩ false).1.metaobjects.errors = [] := by
  obtain ⟨hp, hs, he⟩ := runPass_model_chain 1 cs none ⟨[], [], 0, []⟩ hchain trivial
  have hfilter : ((filterReservedDefinitions ⟨[], cs⟩).1.metaobjects) = cs := by
    simp only [filterReservedDefinitions]
    exact List.filter_eq_self.mpr fun d hd => by simp [hres d hd]
  have hloop : copyLoopResult modelCreate ⟨[], cs⟩ =
      ((runPass modelCreate 1 cs ⟨[], [], 0, []⟩).1, []) := by
    unfold copyLoopResult
    rw [hfilter]
    show copyLoopAux modelCreate 3 0 cs ⟨[], [], 0, []⟩ = _
    by_cases hcs : cs = []
    · subst hcs
      simp [copyLoopAux, runPass]
    · rw [copyLoopAux, if_neg hcs]
      simp only [hp]
      rw [copyLoopAux]
      simp
  refine ⟨hp, by simpa using hs, he, ?_, ?_⟩
  · rw [copy_false_mo_success, hloop]
    simpa using hs
  · rw [copy_false_mo_errors, hloop]
    simp [he]

/-- C10 witness: the in-order 4-chain is fully created in the first pass. -/
theorem in_order_chain_created_in_first_pass_witness :
    (runPass modelCreate 1 [ex0, ex1, ex2, ex3] ⟨[], [], 0, []⟩).2 = [] ∧
      (copyDefinitionsWithDependencies modelCreate (fun _ => Outcome.ok "")
        ⟨[], [ex0, ex1, ex2, ex3]⟩ false).1.metaobjects.success = 4 := by
  have h := in_order_chain_created_in_first_pass (fun _ => Outcome.ok "")
    [ex0, ex1, ex2, ex3] ⟨rfl, rfl, rfl, rfl, trivial⟩ (by decide)
  exact ⟨h.1, h.2.2.2.1⟩

/-! Enumeration of permutations of two- and three-element lists, used for
the any-order convergence bound. -/

theorem perm_two {α : Type _} {l : List α} {a b : α} (h : l.Perm [a, b]) :
    l = [a, b] ∨ l = [b, a] := by
  have hlen : l.length = 2 := by simpa using h.length_eq
  rcases l with _ | ⟨x, _ | ⟨y, _ | ⟨z, t⟩⟩⟩ <;> simp at hlen
  have hx : x ∈ [a, b] := h.subset (by simp)
  rcases List.mem_cons.mp hx with rfl | hx'
  · left
    have h2 : [y].Perm [b] := (List.perm_cons x).mp h
    rw [List.perm_singleton.mp h2]
  · have hxb : x = b := by simpa using hx'
    subst hxb
    right
    have h2 : [y].Perm [a] :=
      (List.perm_cons x).mp (h.trans (List.Perm.swap x a []))
    rw [List.perm_singleton.mp h2]

theorem perm_three {α : Type _} {l : List α} {a b c : α} (h : l.Perm [a, b, c]) :
    l = [a, b, c] ∨ l = [a, c, b] ∨ l = [b, a, c] ∨ l = [b, c, a] ∨
      l = [c, a, b] ∨ l = [c, b, a] := by
  have hlen : l.length = 3 := by simpa using h.length_eq
  rcases l with _ | ⟨x, _ | ⟨y, _ | ⟨z, _ | ⟨w, t⟩⟩⟩⟩ <;> simp at hlen
  have hx : x ∈ [a, b, c] := h.subset (by simp)
  rcases List.mem_cons.mp hx with rfl | hx'
  · have h2 : [y, z].Perm [b, c] := (List.perm_cons x).mp h
    rcases perm_two h2 with h3 | h3 <;> rw [h3] <;> simp
  · rcases List.mem_cons.mp hx' with rfl | hx''
    · have hrot : (List.cons a [x, c]).Perm (x :: [a, c]) := List.Perm.swap x a [c]
      have h2 : [y, z].Perm [a, c] := (List.perm_cons x).mp (h.trans hrot.symm.symm)
      rcases perm_two h2 with h3 | h3 <;> rw [h3] <;> simp
    · have hxc : x = c := by simpa using hx''
      subst hxc
      have hrot : ([a, b, x]).Perm (x :: [a, b]) :=
        (List.Perm.cons a (List.Perm.swap x b [])).trans (List.Perm.swap x a [b])
      have h2 : [y, z].Perm [a, b] := (List.perm_cons x).mp (h.trans hrot)
      rcases perm_two h2 with h3 | h3 <;> rw [h3] <;> simp

/-- Source identifiers that do not start with `#` are never target ids of
the model. -/
theorem ne_newId_of_head {s : String} (h : s.data.head? ≠ some '#') (n : Nat) :
    s ≠ newId n := by
  intro heq
  apply h
  rw [heq]
  unfold newId
  rw [String.data_append]
  rfl

/-- C1 (amended).  A dependency chain of length at most
`MAX_DEPENDENCY_PASSES` (not the pass limit plus one), presented in any
list order, converges under the claim's failure model: every definition is
created and the error list is empty. -/
theorem chain_within_pass_limit_any_order_converges (createMf : MfOracle)
    (cs l : List MetaobjectDef) (hchain : chainFrom none cs)
    (hlen : cs.length ≤ MAX_DEPENDENCY_PASSES) (hperm : l.Perm cs)
    (hres : ∀ d ∈ cs, isReservedMetaobjectType d.type = false)
    (hnodup : (cs.map MetaobjectDef.id).Nodup)
    (hfresh : ∀ d ∈ cs, ∀ n, d.id ≠ newId n) :
    (copyDefinitionsWithDependencies modelCreate createMf
        ⟨[], l⟩ false).1.metaobjects.success = cs.length ∧
      (copyDefinitionsWithDependencies modelCreate createMf
        ⟨[], l⟩ false).1.metaobjects.errors = [] := by
  have hresl : ∀ d ∈ l, isReservedMetaobjectType d.type = false :=
    fun d hd => hres d (hperm.subset hd)
  have hfilter : ((filterReservedDefinitions ⟨[], l⟩).1.metaobjects) = l := by
    simp only [filterReservedDefinitions]
    exact List.filter_eq_self.mpr fun d hd => by simp [hresl d hd]
  have hpend := copyLoopResult_pending_nil modelCreate ⟨[], l⟩
  suffices h : (copyLoopAux modelCreate MAX_DEPENDENCY_PASSES 0 l
      ⟨[], [], 0, []⟩).1.success = cs.length ∧
      (copyLoopAux modelCreate MAX_DEPENDENCY_PASSES 0 l
        ⟨[], [], 0, []⟩).1.errors = [] by
    constructor
    · rw [copy_false_mo_success]
      unfold copyLoopResult
      rw [hfilter]
      exact h.1
    · rw [copy_false_mo_errors, hpend]
      simp only [List.map_nil, List.append_nil]
      unfold copyLoopResult
      rw [hfilter]
      exact h.2
  match cs, hchain, hlen, hperm, hnodup with
  | [], _, _, hperm, _ =>
    rw [List.perm_nil.mp hperm]
    simp [copyLoopAux]
  | [a], hchain, _, hperm, _ =>
    obtain ⟨h0, -⟩ := hchain
    rw [List.perm_singleton.mp hperm]
    simp [copyLoopAux, runPass, modelCreate, refIds_update, substVal, lookupId,
      allCreated, targetIds, afterMoSuccess, afterMoRequeue, afterMoFailure, requeue,
      isDependencyError_modelDepMsg, MAX_DEPENDENCY_PASSES, h0, newId_ne_empty]
  | [a, b], hchain, _, hperm, hnodup =>
    obtain ⟨h0, h1, -⟩ := hchain
    have fab : a.id ≠ b.id := by simp at hnodup; tauto
    have fa : ∀ n, a.id ≠ newId n := hfresh a (by simp)
    have fb : ∀ n, b.id ≠ newId n := hfresh b (by simp)
    rcases perm_two hperm with rfl | rfl <;>
      simp [copyLoopAux, runPass, modelCreate, refIds_update, substVal, lookupId,
        allCreated, targetIds, afterMoSuccess, afterMoRequeue, afterMoFailure, requeue,
        isDependencyError_modelDepMsg, MAX_DEPENDENCY_PASSES, h0, h1,
        fab, Ne.symm fab, fa 0, fa 1, fb 0, fb 1, newId_ne_empty]
  | [a, b, c], hchain, _, hperm, hnodup =>
    obtain ⟨h0, h1, h2, -⟩ := hchain
    have fab : a.id ≠ b.id := by simp at hnodup; tauto
    have fac : a.id ≠ c.id := by simp at hnodup; tauto
    have fbc : b.id ≠ c.id := by simp at hnodup; tauto
    have fa : ∀ n, a.id ≠ newId n := hfresh a (by simp)
    have fb : ∀ n, b.id ≠ newId n := hfresh b (by simp)
    have fc : ∀ n, c.id ≠ newId n := hfresh c (by simp)
    rcases perm_three hperm with rfl | rfl | rfl | rfl | rfl | rfl <;>
      simp [copyLoopAux, runPass, modelCreate, refIds_update, substVal, lookupId,
        allCreated, targetIds, afterMoSuccess, afterMoRequeue, afterMoFailure, requeue,
        isDependencyError_modelDepMsg, MAX_DEPENDENCY_PASSES, h0, h1, h2,
        fab, fac, fbc, Ne.symm fab, Ne.symm fac, Ne.symm fbc,
        fa 0, fa 1, fa 2, fb 0, fb 1, fb 2, fc 0, fc 1, fc 2, newId_ne_empty]
  | _ :: _ :: _ :: _ :: _, _, hlen, _, _ =>
    exfalso
    simp [MAX_DEPENDENCY_PASSES] at hlen

/-- C1 counterexample.  The 4-element chain (length = pass limit + 1) in
reverse order does not converge: only three definitions are created and an
error remains. -/
theorem chain_of_four_any_order_refuted :
    chainFrom none [ex0, ex1, ex2, ex3] ∧
      ([ex0, ex1, ex2, ex3] : List MetaobjectDef).length ≤ MAX_DEPENDENCY_PASSES + 1 ∧
      (copyDefinitionsWithDependencies modelCreate (fun _ => Outcome.ok "")
        exChainRevInput false).1.metaobjects.success = 3 ∧
      (copyDefinitionsWithDependencies modelCreate (fun _ => Outcome.ok "")
        exChainRevInput false).1.metaobjects.errors ≠ [] :=
  ⟨⟨rfl, rfl, rfl, rfl, trivial⟩, by decide, by decide, by decide⟩

/-! Invariants of a model run, used to prove reference-rewriting
correctness: the mapping's keys are distinct and not yet pending, mapping
values are handed-out target ids, every successful creation is reflected in
the mapping, and each logged submitted definition relates positionally to
its original through the mapping at submission time. -/

theorem lookupId_of_mem_nodup {m : IdMapping} {k v : String}
    (hnd : (m.map Prod.fst).Nodup) (h : (k, v) ∈ m) : lookupId m k = some v := by
  induction m with
  | nil => cases h
  | cons p rest ih =>
    obtain ⟨a, b⟩ := p
    simp only [List.map_cons, List.nodup_cons] at hnd
    rcases List.mem_cons.mp h with heq | hmem
    · cases heq
      simp [lookupId]
    · have hk : a ≠ k := by
        intro hak
        subst hak
        exact hnd.1 (List.mem_map.mpr ⟨(a, v), hmem, rfl⟩)
      rw [lookupId_cons_of_ne hk]
      exact ih hnd.2 hmem

theorem lookupId_append_of_not_mem {ext m : IdMapping} {k : String}
    (h : k ∉ ext.map Prod.fst) : lookupId (ext ++ m) k = lookupId m k := by
  induction ext with
  | nil => rfl
  | cons p rest ih =>
    obtain ⟨a, b⟩ := p
    simp only [List.map_cons, List.mem_cons] at h
    push_neg at h
    rw [List.cons_append, lookupId_cons_of_ne (fun hak => h.1 hak.symm)]
    exact ih h.2

/-- The state/pending invariant maintained by a model run. -/
structure ModelInv (st : CopySt) (pending : List MetaobjectDef) : Prop where
  nodupKeys : (st.mapping.map Prod.fst).Nodup
  pendingFresh : ∀ d ∈ pending, lookupId st.mapping d.id = none
  pendingNodup : (pending.map MetaobjectDef.id).Nodup
  valuesNew : ∀ p ∈ st.mapping, ∃ n, p.2 = newId n
  logOk : ∀ d sub nid, Event.moCreate d sub (Outcome.ok nid) ∈ st.log →
    lookupId st.mapping d.id = some nid
  eventLen : ∀ d sub nid, Event.moCreate d sub (Outcome.ok nid) ∈ st.log →
    (refIds sub).length = (refIds d).length
  eventRefs : ∀ d sub nid, Event.moCreate d sub (Outcome.ok nid) ∈ st.log →
    ∀ i w u, (refIds d).get? i = some w → (refIds sub).get? i = some u →
      ((w, u) ∈ st.mapping ∨ u = w) ∧ u ∈ st.mapping.map Prod.snd

/-- Decomposition of a successful model creation. -/
theorem modelCreate_ok_inv {sub : MetaobjectDef} {m : IdMapping} {nid : String}
    (h : modelCreate sub m = Outcome.ok nid) :
    allCreated (refIds sub) (targetIds m) = true ∧ nid = newId m.length := by
  unfold modelCreate at h
  by_cases hall : allCreated (refIds sub) (targetIds m) = true
  · rw [if_pos hall] at h
    cases h
    exact ⟨hall, rfl⟩
  · rw [if_neg hall] at h
    cases h

theorem substVal_inv (m : IdMapping) (w : String) :
    ((w, substVal m w) ∈ m ∨ substVal m w = w) := by
  unfold substVal
  rcases hlook : lookupId m w with _ | x
  · right; rfl
  · by_cases hx : x = ""
    · right; simp [hx]
    · left
      simp only [if_neg hx]
      exact lookupId_eq_some_mem hlook

/-- One pass preserves the invariant; the still-pending list is a sublist of
the input and the mapping grows by entries keyed by input ids. -/
theorem runPass_model_inv (pass : Nat) (l : List MetaobjectDef) (st : CopySt)
    (hinv : ModelInv st l) :
    ModelInv (runPass modelCreate pass l st).1 (runPass modelCreate pass l st).2 ∧
      (runPass modelCreate pass l st).2.Sublist l ∧
      ∃ ext : IdMapping, (runPass modelCreate pass l st).1.mapping = ext ++ st.mapping ∧
        ∀ p ∈ ext, p.1 ∈ l.map MetaobjectDef.id := by
  induction l generalizing st with
  | nil =>
    simp only [runPass]
    refine ⟨?_, List.Sublist.refl _, [], rfl, by simp⟩
    exact
      { nodupKeys := hinv.nodupKeys
        pendingFresh := fun d hd => absurd hd (List.not_mem_nil d)
        pendingNodup := List.nodup_nil
        valuesNew := hinv.valuesNew
        logOk := hinv.logOk
        eventLen := hinv.eventLen
        eventRefs := hinv.eventRefs }
  | cons d rest ih =>
    have hdfresh : lookupId st.mapping d.id = none :=
      hinv.pendingFresh d (List.mem_cons_self d rest)
    have hdid : d.id ∉ rest.map MetaobjectDef.id := by
      have := hinv.pendingNodup
      simp only [List.map_cons, List.nodup_cons] at this
      exact this.1
    have hrestnodup : (rest.map MetaobjectDef.id).Nodup := by
      have := hinv.pendingNodup
      simp only [List.map_cons, List.nodup_cons] at this
      exact this.2
    rcases hop : modelCreate (updateMetaobjectReferences d st.mapping) st.mapping
      with nid | msg
    · -- success: extend mapping and log, recurse on rest
      obtain ⟨hall, hnid⟩ := modelCreate_ok_inv hop
      have hinv' : ModelInv (afterMoSuccess st d
          (updateMetaobjectReferences d st.mapping) nid) rest := by
        constructor
        · rw [afterMoSuccess_mapping]
          simp only [List.map_cons, List.nodup_cons]
          exact ⟨lookupId_eq_none_iff.mp hdfresh, hinv.nodupKeys⟩
        · intro d' hd'
          rw [afterMoSuccess_mapping]
          have hne : d.id ≠ d'.id := by
            intro heq
            exact hdid (heq ▸ List.mem_map.mpr ⟨d', hd', rfl⟩)
          rw [lookupId_cons_of_ne hne]
          exact hinv.pendingFresh d' (List.mem_cons_of_mem _ hd')
        · exact hrestnodup
        · intro p hp
          rw [afterMoSuccess_mapping] at hp
          rcases List.mem_cons.mp hp with heq | hmem
          · subst heq
            exact ⟨st.mapping.length, hnid⟩
          · exact hinv.valuesNew p hmem
        · intro d' sub' nid' hev
          rw [afterMoSuccess_log] at hev
          rw [afterMoSuccess_mapping]
          rcases List.mem_append.mp hev with hold | hnew
          · have hl := hinv.logOk d' sub' nid' hold
            have hne : d.id ≠ d'.id := by
              intro heq
              rw [← heq] at hl
              rw [hdfresh] at hl
              cases hl
            rw [lookupId_cons_of_ne hne]
            exact hl
          · rcases List.mem_singleton.mp hnew with heq
            cases heq
            simp [lookupId]
        · intro d' sub' nid' hev
          rw [afterMoSuccess_log] at hev
          rcases List.mem_append.mp hev with hold | hnew
          · exact hinv.eventLen d' sub' nid' hold
          · rcases List.mem_singleton.mp hnew with heq
            cases heq
            rw [refIds_update, List.length_map]
        · intro d' sub' nid' hev i w u hw hu
          rw [afterMoSuccess_log] at hev
          rw [afterMoSuccess_mapping]
          rcases List.mem_append.mp hev with hold | hnew
          · obtain ⟨h1, h2⟩ := hinv.eventRefs d' sub' nid' hold i w u hw hu
            refine ⟨?_, ?_⟩
            · rcases h1 with h1 | h1
              · exact Or.inl (List.mem_cons_of_mem _ h1)
              · exact Or.inr h1
            · simp only [List.map_cons]
              exact List.mem_cons_of_mem _ h2
          · rcases List.mem_singleton.mp hnew with heq
            cases heq
            rw [refIds_update, List.get?_map, hw, Option.map_some'] at hu
            have hu' : u = substVal st.mapping w := (Option.some_inj.mp hu).symm
            subst hu'
            refine ⟨?_, ?_⟩
            · rcases substVal_inv st.mapping w with h1 | h1
              · exact Or.inl (List.mem_cons_of_mem _ h1)
              · exact Or.inr h1
            · have humem : substVal st.mapping w ∈
                  refIds (updateMetaobjectReferences d st.mapping) := by
                rw [refIds_update]
                exact @List.get?_mem _ _ i _
                  (by rw [List.get?_map, hw, Option.map_some'])
              have := (allCreated_eq_true_iff _ _).mp hall _ humem
              simp only [List.map_cons]
              exact List.mem_cons_of_mem _ this
      obtain ⟨hinvr, hsub, ext, hext, hkeys⟩ := ih _ hinv'
      refine ⟨?_, ?_, ?_⟩
      · simpa only [runPass, hop] using hinvr
      · simp only [runPass, hop]
        exact hsub.trans (List.sublist_cons_self d rest)
      · refine ⟨ext ++ [(d.id, nid)], ?_, ?_⟩
        · simp only [runPass, hop]
          rw [hext, afterMoSuccess_mapping]
          simp
        · intro p hp
          rcases List.mem_append.mp hp with hp' | hp'
          · have := hkeys p hp'
            simp only [List.map_cons]
            exact List.mem_cons_of_mem _ this
          · rcases List.mem_singleton.mp hp' with rfl
            simp
    · -- failure: mapping unchanged
      have hinvlog : ∀ st' : CopySt, st'.mapping = st.mapping →
          st'.log = st.log ++
            [Event.moCreate d (updateMetaobjectReferences d st.mapping)
              (Outcome.err msg)] →
          ModelInv st' rest := by
        intro st' hm hl
        constructor
        · rw [hm]; exact hinv.nodupKeys
        · intro d' hd'
          rw [hm]
          exact hinv.pendingFresh d' (List.mem_cons_of_mem _ hd')
        · exact hrestnodup
        · intro p hp
          rw [hm] at hp
          exact hinv.valuesNew p hp
        · intro d' sub' nid' hev
          rw [hl] at hev
          rw [hm]
          rcases List.mem_append.mp hev with hold | hnew
          · exact hinv.logOk d' sub' nid' hold
          · rcases List.mem_singleton.mp hnew with heq
            cases heq
        · intro d' sub' nid' hev
          rw [hl] at hev
          rcases List.mem_append.mp hev with hold | hnew
          · exact hinv.eventLen d' sub' nid' hold
          · rcases List.mem_singleton.mp hnew with heq
            cases heq
        · intro d' sub' nid' hev
          rw [hl] at hev
          rw [hm]
          rcases List.mem_append.mp hev with hold | hnew
          · exact hinv.eventRefs d' sub' nid' hold
          · rcases List.mem_singleton.mp hnew with heq
            cases heq
      by_cases hdep : isDependencyError msg = true ∧ pass < MAX_DEPENDENCY_PASSES
      · obtain ⟨hinvr, hsub, ext, hext, hkeys⟩ :=
          ih (afterMoRequeue st d (updateMetaobjectReferences d st.mapping) msg)
            (hinvlog _ (afterMoRequeue_mapping ..) (afterMoRequeue_log ..))
        have hextmap : (runPass modelCreate pass rest
            (afterMoRequeue st d (updateMetaobjectReferences d st.mapping)
              msg)).1.mapping = ext ++ st.mapping := hext
        refine ⟨?_, ?_, ?_⟩
        · simp only [runPass, hop, if_pos hdep, requeue]
          constructor
          · exact hinvr.nodupKeys
          · intro d' hd'
            rcases List.mem_cons.mp hd' with rfl | hd''
            · rw [hextmap]
              rw [lookupId_append_of_not_mem]
              · exact hdfresh
              · intro hk
                rcases List.mem_map.mp hk with ⟨p, hp, hpk⟩
                have := hkeys p hp
                rw [hpk] at this
                exact hdid this
            · exact hinvr.pendingFresh d' hd''
          · simp only [List.map_cons, List.nodup_cons]
            refine ⟨?_, hinvr.pendingNodup⟩
            intro hmem
            apply hdid
            have hsubids := hsub.map MetaobjectDef.id
            exact hsubids.subset hmem
          · exact hinvr.valuesNew
          · exact hinvr.logOk
          · exact hinvr.eventLen
          · exact hinvr.eventRefs
        · simp only [runPass, hop, if_pos hdep, requeue]
          exact List.cons_sublist_cons.mpr hsub
        · refine ⟨ext, ?_, ?_⟩
          · simp only [runPass, hop, if_pos hdep, requeue]
            exact hext
          · intro p hp
            have := hkeys p hp
            simp only [List.map_cons]
            exact List.mem_cons_of_mem _ this
      · have hinvf : ModelInv (afterMoFailure st d
            (updateMetaobjectReferences d st.mapping) msg) rest :=
          hinvlog _ (afterMoFailure_mapping ..) (afterMoFailure_log ..)
        obtain ⟨hinvr, hsub, ext, hext, hkeys⟩ := ih _ hinvf
        refine ⟨?_, ?_, ?_⟩
        · simpa only [runPass, hop, if_neg hdep] using hinvr
        · simp only [runPass, hop, if_neg hdep]
          exact hsub.trans (List.sublist_cons_self d rest)
        · refine ⟨ext, ?_, ?_⟩
          · simp only [runPass, hop, if_neg hdep]
            exact hext
          · intro p hp
            have := hkeys p hp
            simp only [List.map_cons]
            exact List.mem_cons_of_mem _ this

theorem copyLoopAux_model_inv (fuel pass : Nat) (l : List MetaobjectDef)
    (st : CopySt) (hinv : ModelInv st l) :
    ModelInv (copyLoopAux modelCreate fuel pass l st).1
      (copyLoopAux modelCreate fuel pass l st).2 := by
  induction fuel generalizing pass l st with
  | zero => simpa [copyLoopAux] using hinv
  | succ fuel ih =>
    rw [copyLoopAux]
    by_cases hl : l = []
    · subst hl
      simpa using hinv
    · rw [if_neg hl]
      exact ih _ _ _ (runPass_model_inv (pass + 1) l st hinv).1

theorem processMfList_events (op : MfOracle) (ev : MetafieldDef → Outcome → Event)
    (l : List MetafieldDef) (acc : KindResult × List Event) :
    ∀ e ∈ (processMfList op ev l acc).2, e ∈ acc.2 ∨ ∃ d ∈ l, ∃ o, e = ev d o := by
  induction l generalizing acc with
  | nil => intro e he; exact Or.inl (by simpa [processMfList] using he)
  | cons d rest ih =>
    intro e he
    rcases hop : op d with nid | msg <;> rw [processMfList, hop] at he <;>
      rcases ih _ e he with h | ⟨d', hd', o, heq⟩
    · rcases List.mem_append.mp h with h' | h'
      · exact Or.inl h'
      · exact Or.inr ⟨d, List.mem_cons_self d rest, _, List.mem_singleton.mp h'⟩
    · exact Or.inr ⟨d', List.mem_cons_of_mem _ hd', o, heq⟩
    · rcases List.mem_append.mp h with h' | h'
      · exact Or.inl h'
      · exact Or.inr ⟨d, List.mem_cons_self d rest, _, List.mem_singleton.mp h'⟩
    · exact Or.inr ⟨d', List.mem_cons_of_mem _ hd', o, heq⟩

/-- Successful metaobject-creation events of a non-dry-run copy all come from
the multi-pass loop (the metafield phase issues no metaobject creations). -/
theorem copy_mo_ok_event_in_loop (create : MoCreateOracle) (createMf : MfOracle)
    (definitions : Definitions) {d sub : MetaobjectDef} {nid : String}
    (h : Event.moCreate d sub (Outcome.ok nid) ∈
      (copyDefinitionsWithDependencies create createMf definitions false).2) :
    Event.moCreate d sub (Outcome.ok nid) ∈
      (copyLoopResult create definitions).1.log := by
  rw [copy_false_log] at h
  rcases List.mem_append.mp h with h1 | h2
  · exact h1
  · exfalso
    have hmf : (processDefinitions (fun _ => Outcome.ok "") createMf
        (fun d o => Event.moCreate d d o) Event.mfCreate
        ⟨(filterReservedDefinitions definitions).1.metafields, []⟩ false).2 =
        (processMfList createMf Event.mfCreate
          (filterReservedDefinitions definitions).1.metafields (⟨0, []⟩, [])).2 := by
      simp [processDefinitions, processMoList]
    rw [hmf] at h2
    rcases processMfList_events createMf Event.mfCreate _ _ _ h2
      with h3 | ⟨d', hd', o, heq⟩
    · exact List.not_mem_nil _ h3
    · cases heq

/-- C3.  Reference-rewriting correctness: whenever A carries a
`metaobject_definition_id` validation whose value is B's source id, and both
A and B are successfully created in a non-dry-run model run, the definition
value submitted for A's successful creation carries B's newly created
target id at that validation — never B's source id. -/
theorem reference_rewriting_correctness (createMf : MfOracle)
    (definitions : Definitions)
    (hnodup : (definitions.metaobjects.map MetaobjectDef.id).Nodup)
    (hfresh : ∀ d ∈ definitions.metaobjects, ∀ n, d.id ≠ newId n)
    (A B : MetaobjectDef) (hB : B ∈ definitions.metaobjects)
    (subA : MetaobjectDef) (nidA : String)
    (hAok : Event.moCreate A subA (Outcome.ok nidA) ∈
      (copyDefinitionsWithDependencies modelCreate createMf definitions false).2)
    (subB : MetaobjectDef) (nidB : String)
    (hBok : Event.moCreate B subB (Outcome.ok nidB) ∈
      (copyDefinitionsWithDependencies modelCreate createMf definitions false).2) :
    (∀ i, (refIds A).get? i = some B.id → (refIds subA).get? i = some nidB) ∧
      B.id ∉ refIds subA ∧ nidB ≠ B.id := by
  have hAok' := copy_mo_ok_event_in_loop modelCreate createMf definitions hAok
  have hBok' := copy_mo_ok_event_in_loop modelCreate createMf definitions hBok
  have hinit : ModelInv ⟨[], [], 0, []⟩
      ((filterReservedDefinitions definitions).1.metaobjects) := by
    constructor
    · exact List.nodup_nil
    · intro d hd; rfl
    · refine List.Nodup.sublist ?_ hnodup
      exact List.Sublist.map _ (List.filter_sublist _)
    · intro p hp; cases hp
    · intro d sub nid hev; cases hev
    · intro d sub nid hev; cases hev
    · intro d sub nid hev; cases hev
  have hfin : ModelInv (copyLoopResult modelCreate definitions).1
      (copyLoopResult modelCreate definitions).2 :=
    copyLoopAux_model_inv MAX_DEPENDENCY_PASSES 0
      ((filterReservedDefinitions definitions).1.metaobjects) ⟨[], [], 0, []⟩ hinit
  have hfreshRange : ∀ v, v ∈ (copyLoopResult modelCreate definitions).1.mapping.map
      Prod.snd → ∀ d ∈ definitions.metaobjects, v ≠ d.id := by
    intro v hv d hd heq
    rcases List.mem_map.mp hv with ⟨p, hp, hpv⟩
    obtain ⟨n, hn⟩ := hfin.valuesNew p hp
    exact hfresh d hd n (by rw [← heq, ← hpv, hn])
  have hlookB : lookupId (copyLoopResult modelCreate definitions).1.mapping B.id =
      some nidB := hfin.logOk B subB nidB hBok'
  have hlenA : (refIds subA).length = (refIds A).length :=
    hfin.eventLen A subA nidA hAok'
  have hnidB : nidB ≠ B.id := by
    intro heq
    apply hfreshRange nidB ?_ B hB heq
    exact List.mem_map.mpr ⟨(B.id, nidB), lookupId_eq_some_mem hlookB, rfl⟩
  refine ⟨?_, ?_, hnidB⟩
  · intro i hiw
    have hilt : i < (refIds A).length := by
      rcases List.get?_eq_some.mp hiw with ⟨hbound, -⟩
      exact hbound
    have hilt' : i < (refIds subA).length := by omega
    have hu : (refIds subA).get? i = some ((refIds subA).get ⟨i, hilt'⟩) :=
      List.get?_eq_get hilt'
    obtain ⟨h1, h2⟩ := hfin.eventRefs A subA nidA hAok' i B.id _ hiw hu
    rcases h1 with h1 | h1
    · have := lookupId_of_mem_nodup hfin.nodupKeys h1
      rw [hlookB] at this
      rw [hu, Option.some_inj.mp this]
    · exfalso
      exact hfreshRange _ (h1 ▸ h2) B hB rfl
  · intro hmem
    obtain ⟨j, hj⟩ := List.mem_iff_get?.mp hmem
    have hjlt : j < (refIds subA).length := by
      rcases List.get?_eq_some.mp hj with ⟨hbound, -⟩
      exact hbound
    have hjlt' : j < (refIds A).length := by omega
    have hw : (refIds A).get? j = some ((refIds A).get ⟨j, hjlt'⟩) :=
      List.get?_eq_get hjlt'
    obtain ⟨h1, h2⟩ := hfin.eventRefs A subA nidA hAok' j _ B.id hw hj
    exact hfreshRange B.id h2 B hB rfl

/-! Provenance of issued calls and recorded errors: every logged event and
every error entry stems from a definition of the processed (already
reserved-filtered) list. -/

theorem runPass_pending_sublist (create : MoCreateOracle) (pass : Nat)
    (l : List MetaobjectDef) (st : CopySt) :
    (runPass create pass l st).2.Sublist l := by
  induction l generalizing st with
  | nil => simp [runPass]
  | cons d rest ih =>
    rcases hop : create (updateMetaobjectReferences d st.mapping) st.mapping with nid | msg
    · simp only [runPass, hop]
      exact (ih _).trans (List.sublist_cons_self d rest)
    · by_cases hdep : isDependencyError msg = true ∧ pass < MAX_DEPENDENCY_PASSES
      · simp only [runPass, hop, if_pos hdep, requeue]
        exact List.cons_sublist_cons.mpr (ih _)
      · simp only [runPass, hop, if_neg hdep]
        exact (ih _).trans (List.sublist_cons_self d rest)

theorem copyLoopAux_pending_sublist (create : MoCreateOracle) (fuel pass : Nat)
    (l : List MetaobjectDef) (st : CopySt) :
    (copyLoopAux create fuel pass l st).2.Sublist l := by
  induction fuel generalizing pass l st with
  | zero => simp [copyLoopAux]
  | succ fuel ih =>
    rw [copyLoopAux]
    by_cases hl : l = []
    · simp [hl]
    · rw [if_neg hl]
      exact (ih _ _ _).trans (runPass_pending_sublist create (pass + 1) l st)

theorem runPass_log_events (create : MoCreateOracle) (pass : Nat)
    (l : List MetaobjectDef) (st : CopySt) :
    ∀ e ∈ (runPass create pass l st).1.log,
      e ∈ st.log ∨ ∃ d ∈ l, ∃ sub o, e = Event.moCreate d sub o := by
  induction l generalizing st with
  | nil => intro e he; exact Or.inl (by simpa [runPass] using he)
  | cons d rest ih =>
    intro e he
    rcases hop : create (updateMetaobjectReferences d st.mapping) st.mapping with nid | msg
    · simp only [runPass, hop] at he
      rcases ih _ e he with h | ⟨d', hd', sub, o, heq⟩
      · rw [afterMoSuccess_log] at h
        rcases List.mem_append.mp h with h' | h'
        · exact Or.inl h'
        · exact Or.inr ⟨d, List.mem_cons_self d rest, _, _, List.mem_singleton.mp h'⟩
      · exact Or.inr ⟨d', List.mem_cons_of_mem _ hd', sub, o, heq⟩
    · by_cases hdep : isDependencyError msg = true ∧ pass < MAX_DEPENDENCY_PASSES
      · simp only [runPass, hop, if_pos hdep, requeue] at he
        rcases ih _ e he with h | ⟨d', hd', sub, o, heq⟩
        · rw [afterMoRequeue_log] at h
          rcases List.mem_append.mp h with h' | h'
          · exact Or.inl h'
          · exact Or.inr ⟨d, List.mem_cons_self d rest, _, _, List.mem_singleton.mp h'⟩
        · exact Or.inr ⟨d', List.mem_cons_of_mem _ hd', sub, o, heq⟩
      · simp only [runPass, hop, if_neg hdep] at he
        rcases ih _ e he with h | ⟨d', hd', sub, o, heq⟩
        · rw [afterMoFailure_log] at h
          rcases List.mem_append.mp h with h' | h'
          · exact Or.inl h'
          · exact Or.inr ⟨d, List.mem_cons_self d rest, _, _, List.mem_singleton.mp h'⟩
        · exact Or.inr ⟨d', List.mem_cons_of_mem _ hd', sub, o, heq⟩

theorem runPass_errors_events (create : MoCreateOracle) (pass : Nat)
    (l : List MetaobjectDef) (st : CopySt) :
    ∀ er ∈ (runPass create pass l st).1.errors,
      er ∈ st.errors ∨ ∃ d ∈ l, ∃ msg, er = ErrEntry.mk d.type msg := by
  induction l generalizing st with
  | nil => intro er he; exact Or.inl (by simpa [runPass] using he)
  | cons d rest ih =>
    intro er he
    rcases hop : create (updateMetaobjectReferences d st.mapping) st.mapping with nid | msg
    · simp only [runPass, hop] at he
      rcases ih _ er he with h | ⟨d', hd', msg', heq⟩
      · rw [afterMoSuccess_errors] at h
        exact Or.inl h
      · exact Or.inr ⟨d', List.mem_cons_of_mem _ hd', msg', heq⟩
    · by_cases hdep : isDependencyError msg = true ∧ pass < MAX_DEPENDENCY_PASSES
      · simp only [runPass, hop, if_pos hdep, requeue] at he
        rcases ih _ er he with h | ⟨d', hd', msg', heq⟩
        · rw [afterMoRequeue_errors] at h
          exact Or.inl h
        · exact Or.inr ⟨d', List.mem_cons_of_mem _ hd', msg', heq⟩
      · simp only [runPass, hop, if_neg hdep] at he
        rcases ih _ er he with h | ⟨d', hd', msg', heq⟩
        · rw [afterMoFailure_errors] at h
          rcases List.mem_append.mp h with h' | h'
          · exact Or.inl h'
          · exact Or.inr ⟨d, List.mem_cons_self d rest, msg,
              List.mem_singleton.mp h'⟩
        · exact Or.inr ⟨d', List.mem_cons_of_mem _ hd', msg', heq⟩

theorem copyLoopAux_log_events (create : MoCreateOracle) (fuel pass : Nat)
    (l : List MetaobjectDef) (st : CopySt) :
    ∀ e ∈ (copyLoopAux create fuel pass l st).1.log,
      e ∈ st.log ∨ ∃ d ∈ l, ∃ sub o, e = Event.moCreate d sub o := by
  induction fuel generalizing pass l st with
  | zero => intro e he; exact Or.inl (by simpa [copyLoopAux] using he)
  | succ fuel ih =>
    intro e he
    rw [copyLoopAux] at he
    by_cases hl : l = []
    · exact Or.inl (by simpa [hl] using he)
    · rw [if_neg hl] at he
      simp only [] at he
      rcases ih _ _ _ e he with h | ⟨d', hd', sub, o, heq⟩
      · rcases runPass_log_events create (pass + 1) l st e h with h' | h'
        · exact Or.inl h'
        · exact Or.inr h'
      · exact Or.inr ⟨d', (runPass_pending_sublist create (pass + 1) l st).subset hd',
          sub, o, heq⟩

theorem copyLoopAux_errors_events (create : MoCreateOracle) (fuel pass : Nat)
    (l : List MetaobjectDef) (st : CopySt) :
    ∀ er ∈ (copyLoopAux create fuel pass l st).1.errors,
      er ∈ st.errors ∨ ∃ d ∈ l, ∃ msg, er = ErrEntry.mk d.type msg := by
  induction fuel generalizing pass l st with
  | zero => intro er he; exact Or.inl (by simpa [copyLoopAux] using he)
  | succ fuel ih =>
    intro er he
    rw [copyLoopAux] at he
    by_cases hl : l = []
    · exact Or.inl (by simpa [hl] using he)
    · rw [if_neg hl] at he
      simp only [] at he
      rcases ih _ _ _ er he with h | ⟨d', hd', msg', heq⟩
      · exact runPass_errors_events create (pass + 1) l st er h
      · exact Or.inr ⟨d', (runPass_pending_sublist create (pass + 1) l st).subset hd',
          msg', heq⟩

theorem processMoList_events (op : MetaobjectDef → Outcome)
    (ev : MetaobjectDef → Outcome → Event) (l : List MetaobjectDef)
    (acc : KindResult × List Event) :
    ∀ e ∈ (processMoList op ev l acc).2, e ∈ acc.2 ∨ ∃ d ∈ l, ∃ o, e = ev d o := by
  induction l generalizing acc with
  | nil => intro e he; exact Or.inl (by simpa [processMoList] using he)
  | cons d rest ih =>
    intro e he
    rcases hop : op d with nid | msg <;> rw [processMoList, hop] at he <;>
      rcases ih _ e he with h | ⟨d', hd', o, heq⟩
    · rcases List.mem_append.mp h with h' | h'
      · exact Or.inl h'
      · exact Or.inr ⟨d, List.mem_cons_self d rest, _, List.mem_singleton.mp h'⟩
    · exact Or.inr ⟨d', List.mem_cons_of_mem _ hd', o, heq⟩
    · rcases List.mem_append.mp h with h' | h'
      · exact Or.inl h'
      · exact Or.inr ⟨d, List.mem_cons_self d rest, _, List.mem_singleton.mp h'⟩
    · exact Or.inr ⟨d', List.mem_cons_of_mem _ hd', o, heq⟩

theorem processMoList_errors (op : MetaobjectDef → Outcome)
    (ev : MetaobjectDef → Outcome → Event) (l : List MetaobjectDef)
    (acc : KindResult × List Event) :
    ∀ er ∈ (processMoList op ev l acc).1.errors,
      er ∈ acc.1.errors ∨ ∃ d ∈ l, ∃ msg, er = ErrEntry.mk d.type msg := by
  induction l generalizing acc with
  | nil => intro er he; exact Or.inl (by simpa [processMoList] using he)
  | cons d rest ih =>
    intro er he
    rcases hop : op d with nid | msg <;> rw [processMoList, hop] at he <;>
      rcases ih _ er he with h | ⟨d', hd', msg', heq⟩
    · exact Or.inl h
    · exact Or.inr ⟨d', List.mem_cons_of_mem _ hd', msg', heq⟩
    · rcases List.mem_append.mp h with h' | h'
      · exact Or.inl h'
      · exact Or.inr ⟨d, List.mem_cons_self d rest, msg, List.mem_singleton.mp h'⟩
    · exact Or.inr ⟨d', List.mem_cons_of_mem _ hd', msg', heq⟩

theorem processMfList_errors (op : MfOracle)
    (ev : MetafieldDef → Outcome → Event) (l : List MetafieldDef)
    (acc : KindResult × List Event) :
    ∀ er ∈ (processMfList op ev l acc).1.errors,
      er ∈ acc.1.errors ∨
        ∃ d ∈ l, ∃ msg, er = ErrEntry.mk (d.ns ++ "/" ++ d.key) msg := by
  induction l generalizing acc with
  | nil => intro er he; exact Or.inl (by simpa [processMfList] using he)
  | cons d rest ih =>
    intro er he
    rcases hop : op d with nid | msg <;> rw [processMfList, hop] at he <;>
      rcases ih _ er he with h | ⟨d', hd', msg', heq⟩
    · exact Or.inl h
    · exact Or.inr ⟨d', List.mem_cons_of_mem _ hd', msg', heq⟩
    · rcases List.mem_append.mp h with h' | h'
      · exact Or.inl h'
      · exact Or.inr ⟨d, List.mem_cons_self d rest, msg, List.mem_singleton.mp h'⟩
    · exact Or.inr ⟨d', List.mem_cons_of_mem _ hd', msg', heq⟩

/-- The reserved-ness condition attached to the definition behind an issued
remote call. -/
def eventNonReserved : Event → Prop
  | Event.moCreate orig _ _ => isReservedMetaobjectType orig.type = false
  | Event.mfCreate d _ => isReservedMetafieldNamespace d.ns = false
  | Event.moDelete d _ => isReservedMetaobjectType d.type = false
  | Event.mfDelete d _ => isReservedMetafieldNamespace d.ns = false

theorem copy_false_mf_result (create : MoCreateOracle) (createMf : MfOracle)
    (definitions : Definitions) :
    (copyDefinitionsWithDependencies create createMf definitions false).1.metafields =
      (processMfList createMf Event.mfCreate
        (filterReservedDefinitions definitions).1.metafields (⟨0, []⟩, [])).1 := rfl

theorem delete_false_log (delMo : MoDeleteOracle) (delMf : MfOracle)
    (definitions : Definitions) :
    (deleteDefinitions delMo delMf definitions false).2 =
      (processMoList delMo Event.moDelete
          (filterReservedDefinitions definitions).1.metaobjects (⟨0, []⟩, [])).2 ++
        (processMfList delMf Event.mfDelete
          (filterReservedDefinitions definitions).1.metafields (⟨0, []⟩, [])).2 := rfl

theorem delete_false_mo_result (delMo : MoDeleteOracle) (delMf : MfOracle)
    (definitions : Definitions) :
    (deleteDefinitions delMo delMf definitions false).1.metaobjects =
      (processMoList delMo Event.moDelete
        (filterReservedDefinitions definitions).1.metaobjects (⟨0, []⟩, [])).1 := rfl

theorem delete_false_mf_result (delMo : MoDeleteOracle) (delMf : MfOracle)
    (definitions : Definitions) :
    (deleteDefinitions delMo delMf definitions false).1.metafields =
      (processMfList delMf Event.mfDelete
        (filterReservedDefinitions definitions).1.metafields (⟨0, []⟩, [])).1 := rfl

/-- C4.  Reserved definitions are untouchable: no create or delete call is
ever issued for a reserved definition, every recorded error names a
non-reserved input definition, and both operations compute exactly what
they would compute on the reserved-free part of the input (so reserved
definitions contribute to neither success counts nor error lists). -/
theorem reserved_definitions_never_touched (create : MoCreateOracle)
    (createMf delMf : MfOracle) (delMo : MoDeleteOracle)
    (definitions : Definitions) (dryRun : Bool) :
    (∀ e ∈ (copyDefinitionsWithDependencies create createMf definitions dryRun).2,
      eventNonReserved e) ∧
    (∀ e ∈ (deleteDefinitions delMo delMf definitions dryRun).2, eventNonReserved e) ∧
    (∀ er ∈ (copyDefinitionsWithDependencies create createMf
        definitions dryRun).1.metaobjects.errors,
      ∃ d ∈ definitions.metaobjects, isReservedMetaobjectType d.type = false ∧
        er.definition = d.type) ∧
    (∀ er ∈ (copyDefinitionsWithDependencies create createMf
        definitions dryRun).1.metafields.errors,
      ∃ d ∈ definitions.metafields, isReservedMetafieldNamespace d.ns = false ∧
        er.definition = d.ns ++ "/" ++ d.key) ∧
    (∀ er ∈ (deleteDefinitions delMo delMf definitions dryRun).1.metaobjects.errors,
      ∃ d ∈ definitions.metaobjects, isReservedMetaobjectType d.type = false ∧
        er.definition = d.type) ∧
    (∀ er ∈ (deleteDefinitions delMo delMf definitions dryRun).1.metafields.errors,
      ∃ d ∈ definitions.metafields, isReservedMetafieldNamespace d.ns = false ∧
        er.definition = d.ns ++ "/" ++ d.key) ∧
    copyDefinitionsWithDependencies create createMf
        ⟨definitions.metafields.filter (fun mf => !isReservedMetafieldNamespace mf.ns),
          definitions.metaobjects.filter
            (fun mo => !isReservedMetaobjectType mo.type)⟩ dryRun =
      copyDefinitionsWithDependencies create createMf definitions dryRun ∧
    deleteDefinitions delMo delMf
        ⟨definitions.metafields.filter (fun mf => !isReservedMetafieldNamespace mf.ns),
          definitions.metaobjects.filter
            (fun mo => !isReservedMetaobjectType mo.type)⟩ dryRun =
      deleteDefinitions delMo delMf definitions dryRun := by
  have hfmf : ∀ d, d ∈ (filterReservedDefinitions definitions).1.metafields →
      d ∈ definitions.metafields ∧ isReservedMetafieldNamespace d.ns = false := by
    intro d hd
    simp only [filterReservedDefinitions] at hd
    have := List.mem_filter.mp hd
    exact ⟨this.1, by simpa using this.2⟩
  have hfmo : ∀ d, d ∈ (filterReservedDefinitions definitions).1.metaobjects →
      d ∈ definitions.metaobjects ∧ isReservedMetaobjectType d.type = false := by
    intro d hd
    simp only [filterReservedDefinitions] at hd
    have := List.mem_filter.mp hd
    exact ⟨this.1, by simpa using this.2⟩
  have hidem : (filterReservedDefinitions
      ⟨definitions.metafields.filter (fun mf => !isReservedMetafieldNamespace mf.ns),
        definitions.metaobjects.filter
          (fun mo => !isReservedMetaobjectType mo.type)⟩).1 =
      (filterReservedDefinitions definitions).1 := by
    simp only [filterReservedDefinitions]
    refine congrArg₂ Definitions.mk ?_ ?_
    · exact List.filter_eq_self.mpr fun a ha => (List.mem_filter.mp ha).2
    · exact List.filter_eq_self.mpr fun a ha => (List.mem_filter.mp ha).2
  have hcopyIdem : copyDefinitionsWithDependencies create createMf
      ⟨definitions.metafields.filter (fun mf => !isReservedMetafieldNamespace mf.ns),
        definitions.metaobjects.filter
          (fun mo => !isReservedMetaobjectType mo.type)⟩ dryRun =
      copyDefinitionsWithDependencies create createMf definitions dryRun := by
    unfold copyDefinitionsWithDependencies
    rw [hidem]
  have hdelIdem : deleteDefinitions delMo delMf
      ⟨definitions.metafields.filter (fun mf => !isReservedMetafieldNamespace mf.ns),
        definitions.metaobjects.filter
          (fun mo => !isReservedMetaobjectType mo.type)⟩ dryRun =
      deleteDefinitions delMo delMf definitions dryRun := by
    unfold deleteDefinitions
    rw [hidem]
  cases dryRun with
  | true =>
    refine ⟨?_, ?_, ?_, ?_, ?_, ?_, hcopyIdem, hdelIdem⟩ <;>
      simp [copyDefinitionsWithDependencies, deleteDefinitions, processDefinitions]
  | false =>
    refine ⟨?_, ?_, ?_, ?_, ?_, ?_, hcopyIdem, hdelIdem⟩
    · intro e he
      rw [copy_false_log] at he
      rcases List.mem_append.mp he with h1 | h2
      · rcases copyLoopAux_log_events create MAX_DEPENDENCY_PASSES 0 _ _ e h1
          with h | ⟨d, hd, sub, o, rfl⟩
        · cases h
        · exact (hfmo d hd).2
      · have hmf : (processDefinitions (fun _ => Outcome.ok "") createMf
            (fun d o => Event.moCreate d d o) Event.mfCreate
            ⟨(filterReservedDefinitions definitions).1.metafields, []⟩ false).2 =
            (processMfList createMf Event.mfCreate
              (filterReservedDefinitions definitions).1.metafields (⟨0, []⟩, [])).2 := by
          simp [processDefinitions, processMoList]
        rw [hmf] at h2
        rcases processMfList_events createMf Event.mfCreate _ _ _ h2
          with h | ⟨d, hd, o, rfl⟩
        · cases h
        · exact (hfmf d hd).2
    · intro e he
      rw [delete_false_log] at he
      rcases List.mem_append.mp he with h1 | h2
      · rcases processMoList_events delMo Event.moDelete _ _ _ h1
          with h | ⟨d, hd, o, rfl⟩
        · cases h
        · exact (hfmo d hd).2
      · rcases processMfList_events delMf Event.mfDelete _ _ _ h2
          with h | ⟨d, hd, o, rfl⟩
        · cases h
        · exact (hfmf d hd).2
    · intro er he
      rw [copy_false_mo_errors] at he
      rcases List.mem_append.mp he with h1 | h2
      · rcases copyLoopAux_errors_events create MAX_DEPENDENCY_PASSES 0 _ _ er h1
          with h | ⟨d, hd, msg, rfl⟩
        · cases h
        · exact ⟨d, (hfmo d hd).1, (hfmo d hd).2, rfl⟩
      · rcases List.mem_map.mp h2 with ⟨d, hd, rfl⟩
        have hd' := (copyLoopAux_pending_sublist create MAX_DEPENDENCY_PASSES 0
          ((filterReservedDefinitions definitions).1.metaobjects)
          ⟨[], [], 0, []⟩).subset hd
        exact ⟨d, (hfmo d hd').1, (hfmo d hd').2, rfl⟩
    · intro er he
      rw [copy_false_mf_result] at he
      rcases processMfList_errors createMf Event.mfCreate _ _ er he
        with h | ⟨d, hd, msg, rfl⟩
      · cases h
      · exact ⟨d, (hfmf d hd).1, (hfmf d hd).2, rfl⟩
    · intro er he
      rw [delete_false_mo_result] at he
      rcases processMoList_errors delMo Event.moDelete _ _ er he
        with h | ⟨d, hd, msg, rfl⟩
      · cases h
      · exact ⟨d, (hfmo d hd).1, (hfmo d hd).2, rfl⟩
    · intro er he
      rw [delete_false_mf_result] at he
      rcases processMfList_errors delMf Event.mfDelete _ _ er he
        with h | ⟨d, hd, msg, rfl⟩
      · cases h
      · exact ⟨d, (hfmf d hd).1, (hfmf d hd).2, rfl⟩

/-- C4 witness: with a reserved metafield and a reserved metaobject in the
input, the one issued creation is for the non-reserved definition, and the
run computes exactly what it computes on the reserved-free input. -/
theorem reserved_definitions_never_touched_witness :
    eventNonReserved (Event.moCreate ex0 ex0 (Outcome.ok (newId 0))) ∧
      copyDefinitionsWithDependencies modelCreate (fun _ => Outcome.ok "")
          ⟨([⟨"m1", "shopify", "k", "N", []⟩] :
              List MetafieldDef).filter (fun mf => !isReservedMetafieldNamespace mf.ns),
            ([⟨"g9", "shopify--app", "R", []⟩, ex0] :
              List MetaobjectDef).filter (fun mo => !isReservedMetaobjectType mo.type)⟩
          false =
        copyDefinitionsWithDependencies modelCreate (fun _ => Outcome.ok "")
          ⟨[⟨"m1", "shopify", "k", "N", []⟩], [⟨"g9", "shopify--app", "R", []⟩, ex0]⟩
          false :=
  ⟨(reserved_definitions_never_touched modelCreate (fun _ => Outcome.ok "")
      (fun _ => Outcome.ok "") (fun _ => Outcome.ok "")
      ⟨[⟨"m1", "shopify", "k", "N", []⟩], [⟨"g9", "shopify--app", "R", []⟩, ex0]⟩
      false).1 _ (by decide),
    (reserved_definitions_never_touched modelCreate (fun _ => Outcome.ok "")
      (fun _ => Outcome.ok "") (fun _ => Outcome.ok "")
      ⟨[⟨"m1", "shopify", "k", "N", []⟩], [⟨"g9", "shopify--app", "R", []⟩, ex0]⟩
      false).2.2.2.2.2.2.1⟩

/-- The definition value actually submitted for `ex1` once `ex0` has been
created: the reference validation now carries the fresh target id. -/
def subEx1 : MetaobjectDef :=
  ⟨"gid1", "t1", "T1", [⟨"f", "F", [⟨METAOBJECT_REFERENCE_VALIDATION_KEY, newId 0⟩]⟩]⟩

/-- C3 witness: rewriting correctness applied to the in-order 2-chain. -/
theorem reference_rewriting_correctness_witness :
    (refIds ex1).get? 0 = some ex0.id ∧
      (refIds subEx1).get? 0 = some (newId 0) ∧ ex0.id ∉ refIds subEx1 := by
  have h := reference_rewriting_correctness (fun _ => Outcome.ok "")
    ⟨[], [ex0, ex1]⟩ (by decide)
    (by
      intro d hd n
      rcases List.mem_cons.mp hd with rfl | hd'
      · exact ne_newId_of_head (by decide) n
      rcases List.mem_cons.mp hd' with rfl | hd''
      · exact ne_newId_of_head (by decide) n
      · cases hd'')
    ex1 ex0 (by decide) subEx1 (newId 1) (by decide) ex0 (newId 0) (by decide)
  exact ⟨by decide, h.1 0 (by decide), h.2.1⟩

/-- C1 witness: the amended theorem applied to the reversed 3-chain. -/
theorem chain_within_pass_limit_any_order_converges_witness :
    (copyDefinitionsWithDependencies modelCreate (fun _ => Outcome.ok "")
        ⟨[], [ex2, ex1, ex0]⟩ false).1.metaobjects.success = 3 ∧
      (copyDefinitionsWithDependencies modelCreate (fun _ => Outcome.ok "")
        ⟨[], [ex2, ex1, ex0]⟩ false).1.metaobjects.errors = [] := by
  have h := chain_within_pass_limit_any_order_converges (fun _ => Outcome.ok "")
    [ex0, ex1, ex2] [ex2, ex1, ex0] ⟨rfl, rfl, rfl, trivial⟩ (by decide) (by decide)
    (by decide) (by decide)
    (by
      intro d hd n
      rcases List.mem_cons.mp hd with rfl | hd'
      · exact ne_newId_of_head (by decide) n
      rcases List.mem_cons.mp hd' with rfl | hd''
      · exact ne_newId_of_head (by decide) n
      rcases List.mem_cons.mp hd'' with rfl | hd'''
      · exact ne_newId_of_head (by decide) n
      · cases hd''')
  exact h

/-! The conflict resolver's global latch. -/

theorem resolveConflict_update_all_latched (dryRun : Bool) (answer : EntryAction) :
    resolveConflict dryRun (some EntryAction.update_all) answer =
      (EntryAction.update, some EntryAction.update_all, false) := by
  simp [resolveConflict]

theorem resolveConflict_skip_all_latched (dryRun : Bool) (answer : EntryAction) :
    resolveConflict dryRun (some EntryAction.skip_all) answer =
      (EntryAction.skip, some EntryAction.skip_all, false) := by
  simp [resolveConflict]

/-- C5.  Once the user chooses an "-all" verdict at a prompt, the latch is
set, and every subsequent `resolveConflict` call returns the corresponding
verdict without invoking the prompt, whatever the pending answers would
have been; symmetrically for skip-all. -/
theorem conflict_resolver_all_latch (dryRun : Bool) (g : Option EntryAction)
    (answers : List EntryAction) :
    ((resolveConflict dryRun g EntryAction.update_all).2.2 = true →
      (resolveConflict dryRun g EntryAction.update_all).2.1 =
        some EntryAction.update_all) ∧
    ((resolveConflict dryRun g EntryAction.skip_all).2.2 = true →
      (resolveConflict dryRun g EntryAction.skip_all).2.1 =
        some EntryAction.skip_all) ∧
    (resolveRun dryRun (some EntryAction.update_all) answers).1 =
      answers.map (fun _ => (EntryAction.update, false)) ∧
    (resolveRun dryRun (some EntryAction.skip_all) answers).1 =
      answers.map (fun _ => (EntryAction.skip, false)) := by
  refine ⟨?_, ?_, ?_, ?_⟩
  · unfold resolveConflict
    split_ifs <;> simp
  · unfold resolveConflict
    split_ifs <;> simp
  · induction answers with
    | nil => simp [resolveRun]
    | cons a rest ih =>
      simp only [resolveRun, resolveConflict_update_all_latched, List.map_cons]
      rw [ih]
  · induction answers with
    | nil => simp [resolveRun]
    | cons a rest ih =>
      simp only [resolveRun, resolveConflict_skip_all_latched, List.map_cons]
      rw [ih]

/-- C5 witness: choosing update-all in a fresh non-dry-run resolver latches
the state, and two subsequent calls both resolve to update without
prompting. -/
theorem conflict_resolver_all_latch_witness :
    (resolveConflict false none EntryAction.update_all).2.1 =
        some EntryAction.update_all ∧
      (resolveRun false (some EntryAction.update_all)
          [EntryAction.skip, EntryAction.quit]).1 =
        [(EntryAction.update, false), (EntryAction.update, false)] :=
  ⟨(conflict_resolver_all_latch false none []).1 (by decide),
    (conflict_resolver_all_latch false none
      [EntryAction.skip, EntryAction.quit]).2.2.1⟩

/-! The quit verdict aborts entry copying immediately. -/

/-- C6.  If resolving the conflict of the next entry yields the quit
verdict, the whole `copyMetaobjectEntries` run returns the results
accumulated so far, unchanged — the remaining entries of the current
definition and all later definitions are neither processed nor reported as
errors, and no create or upsert call is logged from that point on. -/
theorem quit_halts_entry_copy (client : EntryClient) (e : Entry)
    (restE : List Entry) (restD : List MoDefWithEntries) (dType : String)
    (res : EntryResults) (st : EntrySt)
    (hquit : (copyMetaobjectEntry client false e st).1 = EntryOutcome.quit) :
    copyMetaobjectEntries client false (⟨dType, e :: restE⟩ :: restD) res st =
        (res, (copyMetaobjectEntry client false e st).2) ∧
      (copyMetaobjectEntry client false e st).2.log = st.log := by
  constructor
  · have hloop : copyEntriesLoop client false (e :: restE) res st =
        (res, (copyMetaobjectEntry client false e st).2, true) := by
      rw [copyEntriesLoop]
      simp only [hquit]
    rw [copyMetaobjectEntries]
    simp only [hloop, if_true]
  · rcases hbh : client.byHandle e.type e.handle with _ | t
    · rcases hce : client.createEntry e with nid | msg <;>
        simp [copyMetaobjectEntry, hbh, hce] at hquit
    · rcases hra : (resolveConflict false st.globalAction
          (st.answers st.answerIdx)).1 with _ | _ | _ | _ | _
      · rcases hue : client.upsertEntry e with nid | msg <;>
          simp [copyMetaobjectEntry, hbh, hra, hue] at hquit
      · simp [copyMetaobjectEntry, hbh, hra] at hquit
      · rcases hue : client.upsertEntry e with nid | msg <;>
          simp [copyMetaobjectEntry, hbh, hra, hue] at hquit
      · rcases hue : client.upsertEntry e with nid | msg <;>
          simp [copyMetaobjectEntry, hbh, hra, hue] at hquit
      · simp [copyMetaobjectEntry, hbh, hra]

/-- A concrete entry client for the C6 witness: the target already holds an
entry for every (type, handle). -/
def exEntryClient : EntryClient :=
  ⟨fun type handle => some ⟨type, handle, []⟩,
    fun _ => Outcome.ok "created",
    fun _ => Outcome.ok "upserted"⟩

/-- The C6 witness state: a fresh resolver whose user answers quit. -/
def exEntrySt : EntrySt := ⟨none, fun _ => EntryAction.quit, 0, []⟩

/-- C6 witness: the abort theorem applied to a two-definition input whose
first entry's conflict is answered with quit. -/
theorem quit_halts_entry_copy_witness :
    copyMetaobjectEntries exEntryClient false
        [⟨"t", [⟨"t", "h1", []⟩, ⟨"t", "h2", []⟩]⟩, ⟨"u", [⟨"u", "h3", []⟩]⟩]
        ⟨2, [], 1⟩ exEntrySt =
      (⟨2, [], 1⟩, (copyMetaobjectEntry exEntryClient false ⟨"t", "h1", []⟩
        exEntrySt).2) ∧
      (copyMetaobjectEntry exEntryClient false ⟨"t", "h1", []⟩ exEntrySt).2.log =
        exEntrySt.log :=
  quit_halts_entry_copy exEntryClient ⟨"t", "h1", []⟩ [⟨"t", "h2", []⟩]
    [⟨"u", [⟨"u", "h3", []⟩]⟩] "t" ⟨2, [], 1⟩ exEntrySt (by rfl)

/-! The manifest round-trip: matching a definition set against a manifest
holding exactly its identifiers. -/

theorem find?_unique {α : Type _} (p : α → Bool) (l : List α) (d : α)
    (hd : d ∈ l) (hpd : p d = true)
    (huniq : ∀ x ∈ l, p x = true → x = d) : l.find? p = some d := by
  induction l with
  | nil => cases hd
  | cons a rest ih =>
    by_cases hpa : p a = true
    · rw [List.find?_cons_of_pos _ hpa]
      rw [huniq a (List.mem_cons_self a rest) hpa]
    · rw [List.find?_cons_of_neg _ hpa]
      have hda : d ≠ a := fun heq => hpa (heq ▸ hpd)
      have hd' : d ∈ rest := by
        rcases List.mem_cons.mp hd with heq | h
        · exact absurd heq hda
        · exact h
      exact ih hd' fun x hx hpx => huniq x (List.mem_cons_of_mem _ hx) hpx

/-- One parse step never sets the `name` field of a metaobject entry. -/
theorem parseStep_mo_name_none (cur : Option Section) (acc : ParsedManifest)
    (line : String) (hacc : ∀ m ∈ acc.metaobjects, m.name = none) :
    ∀ m ∈ (parseStep cur acc line).2.metaobjects, m.name = none := by
  rcases cur with _ | sec
  · unfold parseStep
    rw [if_neg (by simp)]
    split_ifs <;> exact hacc
  · unfold parseStep
    by_cases h1 : strStartsWith line "### " = true
    · rw [if_pos ⟨h1, by simp⟩]
      rcases hpd : parseDefinitionLine (String.mk (trimChars (line.data.drop 4))) sec
        with _ | mfmo
      · simp only [hpd]
        exact hacc
      · rcases mfmo with mf | mo
        · simp only [hpd]
          exact hacc
        · simp only [hpd]
          intro m hm
          rcases List.mem_append.mp hm with h | h
          · exact hacc m h
          · rw [List.mem_singleton.mp h]
            rcases sec with _ | _
            · unfold parseDefinitionLine at hpd
              split_ifs at hpd
              simp at hpd
            · unfold parseDefinitionLine at hpd
              cases Option.some_inj.mp hpd
              rfl
    · rw [if_neg (by intro hc; exact h1 hc.1)]
      split_ifs <;> exact hacc

/-- Every metaobject entry of a parsed manifest has `name = none` (the
parser never sets that field). -/
theorem parseLines_mo_name_none (ls : List String) (cur : Option Section)
    (acc : ParsedManifest) (hacc : ∀ m ∈ acc.metaobjects, m.name = none) :
    ∀ m ∈ (parseLines ls cur acc).metaobjects, m.name = none := by
  induction ls generalizing cur acc with
  | nil => simpa [parseLines] using hacc
  | cons line rest ih =>
    rw [parseLines]
    exact ih _ _ (parseStep_mo_name_none cur acc line hacc)

theorem parseContent_mo_name_none (content : String) :
    ∀ m ∈ (parseContent content).metaobjects, m.name = none := by
  unfold parseContent
  exact parseLines_mo_name_none _ none ⟨[], []⟩ (by intro m hm; cases hm)

theorem matchMetafields_notFound_nil (all : List MetafieldDef)
    (mlist : List ManifestMetafield)
    (hsat : ∀ m ∈ mlist, ∃ d ∈ all, d.ns = m.ns ∧ d.key = m.key) :
    (matchMetafields all mlist).2 = [] := by
  induction mlist with
  | nil => rfl
  | cons m rest ih =>
    rw [matchMetafields]
    obtain ⟨d, hd, hpair⟩ := hsat m (List.mem_cons_self m rest)
    rcases hf : all.find? (fun d' => d'.ns = m.ns ∧ d'.key = m.key) with _ | found
    · exfalso
      have := List.find?_eq_none.mp hf d hd
      simp [hpair.1, hpair.2] at this
    · simp only [hf]
      exact ih fun m' hm' => hsat m' (List.mem_cons_of_mem _ hm')

theorem matchMetafields_mem (all : List MetafieldDef)
    (hnd : (all.map fun d => (d.ns, d.key)).Nodup)
    (mlist : List ManifestMetafield) (d : MetafieldDef) (hd : d ∈ all)
    (m : ManifestMetafield) (hm : m ∈ mlist)
    (hpair : m.ns = d.ns ∧ m.key = d.key) :
    d ∈ (matchMetafields all mlist).1 := by
  induction mlist with
  | nil => cases hm
  | cons m0 rest ih =>
    rw [matchMetafields]
    rcases List.mem_cons.mp hm with rfl | hm'
    · have hf : all.find? (fun d' => d'.ns = m.ns ∧ d'.key = m.key) = some d := by
        apply find?_unique _ _ d hd
        · simp [hpair.1, hpair.2]
        · intro x hx hpx
          simp only [decide_eq_true_eq] at hpx
          refine List.inj_on_of_nodup_map hnd hx hd ?_
          simp [hpx.1, hpx.2, hpair.1, hpair.2]
      simp only [hf]
      exact List.mem_cons_self d _
    · rcases hf : all.find? (fun d' => d'.ns = m0.ns ∧ d'.key = m0.key) with _ | found
      · simp only [hf]
        exact ih hm'
      · simp only [hf]
        exact List.mem_cons_of_mem _ (ih hm')

theorem matchMetaobjects_notFound_nil (all : List MetaobjectDef)
    (mlist : List ManifestMetaobject)
    (hsat : ∀ m ∈ mlist, ∃ d ∈ all, d.type = m.objectType ∧ m.objectType ≠ "") :
    (matchMetaobjects all mlist).2 = [] := by
  induction mlist with
  | nil => rfl
  | cons m rest ih =>
    rw [matchMetaobjects]
    obtain ⟨d, hd, htype, hne⟩ := hsat m (List.mem_cons_self m rest)
    rcases hf : all.find? (fun d' => moMatches m d') with _ | found
    · exfalso
      have := List.find?_eq_none.mp hf d hd
      simp only [decide_eq_true_eq] at this
      exact this (Or.inl ⟨hne, htype⟩)
    · simp only [hf]
      exact ih fun m' hm' => hsat m' (List.mem_cons_of_mem _ hm')

theorem matchMetaobjects_mem (all : List MetaobjectDef)
    (hnd : (all.map MetaobjectDef.type).Nodup)
    (mlist : List ManifestMetaobject) (d : MetaobjectDef) (hd : d ∈ all)
    (m : ManifestMetaobject) (hm : m ∈ mlist)
    (htype : m.objectType = d.type) (hne : m.objectType ≠ "")
    (hname : ∀ m' ∈ mlist, m'.name = none) :
    d ∈ (matchMetaobjects all mlist).1 := by
  induction mlist with
  | nil => cases hm
  | cons m0 rest ih =>
    rw [matchMetaobjects]
    rcases List.mem_cons.mp hm with rfl | hm'
    · have hf : all.find? (fun d' => moMatches m d') = some d := by
        apply find?_unique _ _ d hd
        · simp only [decide_eq_true_eq]
          exact Or.inl ⟨hne, htype.symm⟩
        · intro x hx hpx
          simp only [decide_eq_true_eq] at hpx
          rcases hpx with ⟨-, hx'⟩ | hx'
          · refine List.inj_on_of_nodup_map hnd hx hd ?_
            rw [hx', htype]
          · rw [hname m (List.mem_cons_self m rest)] at hx'
            cases hx'
      simp only [hf]
      exact List.mem_cons_self d _
    · rcases hf : all.find? (fun d' => moMatches m0 d') with _ | found
      · simp only [hf]
        exact ih hm' fun m' hm'' => hname m' (List.mem_cons_of_mem _ hm'')
      · simp only [hf]
        exact List.mem_cons_of_mem _
          (ih hm' fun m' hm'' => hname m' (List.mem_cons_of_mem _ hm''))

/-- C7.  Manifest round-trip: for a definition set with pairwise distinct
identifiers and a (parsed) manifest holding exactly those identifiers,
`findMatchingDefinitions` returns every definition in the matched lists and
an empty `notFound` list.  The two hypotheses about the manifest's shape —
non-empty `objectType` strings and absent `name` fields — hold of every
`parseContent` output (`parseContent_mo_name_none`; heading identifiers are
non-empty because heading lines are trimmed). -/
theorem manifest_round_trip (manifest : ParsedManifest) (D : Definitions)
    (hndmf : (D.metafields.map fun d => (d.ns, d.key)).Nodup)
    (hndmo : (D.metaobjects.map MetaobjectDef.type).Nodup)
    (hpermmf : (manifest.metafields.map fun m => (m.ns, m.key)).Perm
      (D.metafields.map fun d => (d.ns, d.key)))
    (hpermmo : (manifest.metaobjects.map ManifestMetaobject.objectType).Perm
      (D.metaobjects.map MetaobjectDef.type))
    (hne : ∀ m ∈ manifest.metaobjects, m.objectType ≠ "")
    (hname : ∀ m ∈ manifest.metaobjects, m.name = none) :
    (∀ d ∈ D.metafields, d ∈ (findMatchingDefinitions manifest D).metafields) ∧
      (∀ d ∈ D.metaobjects, d ∈ (findMatchingDefinitions manifest D).metaobjects) ∧
      (findMatchingDefinitions manifest D).notFound = [] := by
  refine ⟨?_, ?_, ?_⟩
  · intro d hd
    have hpd : (d.ns, d.key) ∈ manifest.metafields.map fun m => (m.ns, m.key) :=
      hpermmf.symm.subset (List.mem_map.mpr ⟨d, hd, rfl⟩)
    rcases List.mem_map.mp hpd with ⟨m, hm, hmp⟩
    have hpair : m.ns = d.ns ∧ m.key = d.key := by
      simpa [Prod.ext_iff] using hmp
    exact matchMetafields_mem D.metafields hndmf manifest.metafields d hd m hm hpair
  · intro d hd
    have hpd : d.type ∈ manifest.metaobjects.map ManifestMetaobject.objectType :=
      hpermmo.symm.subset (List.mem_map.mpr ⟨d, hd, rfl⟩)
    rcases List.mem_map.mp hpd with ⟨m, hm, hmp⟩
    exact matchMetaobjects_mem D.metaobjects hndmo manifest.metaobjects d hd m hm
      hmp (hmp ▸ hne m hm) hname
  · show (matchMetafields D.metafields manifest.metafields).2 ++
      (matchMetaobjects D.metaobjects manifest.metaobjects).2 = []
    rw [matchMetafields_notFound_nil, matchMetaobjects_notFound_nil]
    · rfl
    · intro m hm
      have : m.objectType ∈ D.metaobjects.map MetaobjectDef.type :=
        hpermmo.subset (List.mem_map.mpr ⟨m, hm, rfl⟩)
      rcases List.mem_map.mp this with ⟨d, hd, hdt⟩
      exact ⟨d, hd, hdt, hne m hm⟩
    · intro m hm
      have : (m.ns, m.key) ∈ D.metafields.map fun d => (d.ns, d.key) :=
        hpermmf.subset (List.mem_map.mpr ⟨m, hm, rfl⟩)
      rcases List.mem_map.mp this with ⟨d, hd, hdp⟩
      have hdp' : d.ns = m.ns ∧ d.key = m.key := by
        simpa [Prod.ext_iff] using hdp
      exact ⟨d, hd, hdp'.1, hdp'.2⟩

/-- C7 witness: a parsed two-identifier manifest matched against the
corresponding two-definition set. -/
theorem manifest_round_trip_witness :
    (⟨"mf1", "custom", "hero", "Hero", []⟩ : MetafieldDef) ∈
        (findMatchingDefinitions
          (parseContent "## Metafields\n### custom.hero\n## Metaobjects\n### font")
          ⟨[⟨"mf1", "custom", "hero", "Hero", []⟩], [⟨"g1", "font", "Font", []⟩]⟩).metafields ∧
      (findMatchingDefinitions
          (parseContent "## Metafields\n### custom.hero\n## Metaobjects\n### font")
          ⟨[⟨"mf1", "custom", "hero", "Hero", []⟩],
            [⟨"g1", "font", "Font", []⟩]⟩).notFound = [] := by
  have h := manifest_round_trip
    (parseContent "## Metafields\n### custom.hero\n## Metaobjects\n### font")
    ⟨[⟨"mf1", "custom", "hero", "Hero", []⟩], [⟨"g1", "font", "Font", []⟩]⟩
    (by decide) (by decide) (by decide) (by decide) (by decide)
    (parseContent_mo_name_none _)
  exact ⟨h.1 _ (by decide), h.2.2⟩

/-! The parsed manifest is ordered but not deduplicated. -/

/-- The deduplication property claimed of parsed manifests: no two
metafield entries share a (namespace, key) pair and no two metaobject
entries share an objectType. -/
def manifestDeduped (m : ParsedManifest) : Prop :=
  (m.metafields.map fun e => (e.ns, e.key)).Nodup ∧
    (m.metaobjects.map ManifestMetaobject.objectType).Nodup

instance (m : ParsedManifest) : Decidable (manifestDeduped m) := by
  unfold manifestDeduped; exact inferInstance

/-- The section reached by a parse step does not depend on the accumulated
entries. -/
theorem parseStep_fst (cur : Option Section) (acc : ParsedManifest) (line : String) :
    (parseStep cur acc line).1 = (parseStep cur ⟨[], []⟩ line).1 := by
  unfold parseStep
  by_cases h1 : strStartsWith line "### " = true ∧ cur ≠ none
  · rw [if_pos h1, if_pos h1]
    rcases cur with _ | sec
    · rfl
    · rcases hpd : parseDefinitionLine (String.mk (trimChars (line.data.drop 4))) sec
        with _ | mfmo
      · simp [hpd]
      · rcases mfmo with mf | mo <;> simp [hpd]
  · rw [if_neg h1, if_neg h1]
    split_ifs <;> rfl

theorem parseLines_append (ls ms : List String) (cur : Option Section)
    (acc : ParsedManifest) :
    parseLines (ls ++ ms) cur acc =
      parseLines ms (sectionAfter ls cur) (parseLines ls cur acc) := by
  induction ls generalizing cur acc with
  | nil => rfl
  | cons l rest ih =>
    have hsec : sectionAfter rest (parseStep cur acc l).1 =
        sectionAfter rest (parseStep cur ⟨[], []⟩ l).1 := by
      rw [parseStep_fst]
    rw [List.cons_append, parseLines, ih, hsec, sectionAfter]
    rfl

/-- C8 (amended).  `parseContent` performs no deduplication: every `### `
heading line reached while the current section is the metaobjects section
appends one entry, so a heading repeated in the input text yields repeated
entries in the parsed manifest, in input order. -/
theorem parse_heading_always_appends (ls : List String) (line : String)
    (h1 : strStartsWith line "### " = true)
    (hsec : sectionAfter ls none = some Section.metaobjects) :
    (parseLines (ls ++ [line, line]) none ⟨[], []⟩).metaobjects =
      (parseLines ls none ⟨[], []⟩).metaobjects ++
        [⟨String.mk (trimChars (line.data.drop 4)), none,
            String.mk (trimChars (line.data.drop 4))⟩,
          ⟨String.mk (trimChars (line.data.drop 4)), none,
            String.mk (trimChars (line.data.drop 4))⟩] := by
  have hstep : ∀ acc : ParsedManifest,
      parseStep (some Section.metaobjects) acc line =
        (some Section.metaobjects,
          { acc with metaobjects := acc.metaobjects ++
              [⟨String.mk (trimChars (line.data.drop 4)), none,
                String.mk (trimChars (line.data.drop 4))⟩] }) := by
    intro acc
    unfold parseStep
    rw [if_pos ⟨h1, by simp⟩]
    rfl
  rw [parseLines_append, hsec]
  rw [parseLines, hstep]
  rw [parseLines, hstep]
  rw [parseLines]
  simp

/-- C8 counterexample.  A manifest text repeating the heading `### foo`
parses to two identical metaobject entries: the parsed manifest is not
deduplicated. -/
theorem parse_manifest_dedup_refuted :
    (parseContent "## Metaobjects\n### foo\n### foo").metaobjects.map
        ManifestMetaobject.objectType = ["foo", "foo"] ∧
      ¬ manifestDeduped (parseContent "## Metaobjects\n### foo\n### foo") := by
  exact ⟨by decide, by decide⟩

/-- C8 witness: the amended theorem applied to a concrete metaobjects
section with a duplicated heading. -/
theorem parse_heading_always_appends_witness :
    (parseLines (["## Metaobjects"] ++ ["### foo", "### foo"]) none
        ⟨[], []⟩).metaobjects =
      (parseLines ["## Metaobjects"] none ⟨[], []⟩).metaobjects ++
        [⟨String.mk (trimChars ("### foo".data.drop 4)), none,
            String.mk (trimChars ("### foo".data.drop 4))⟩,
          ⟨String.mk (trimChars ("### foo".data.drop 4)), none,
            String.mk (trimChars ("### foo".data.drop 4))⟩] :=
  parse_heading_always_appends ["## Metaobjects"] "### foo" (by decide) (by decide)

end MetaSync
